import Mathlib

/-!
# Verification of the gcache2 cache engine (Simple and LRU variants)

Shallow embedding of `simple.go` (`SimpleCache`) and the LRU source file
(`LRUCache`).  Keys, values and instants are `Nat`; the injectable clock is an
explicit `now : Nat` argument threaded through every operation that consults
`c.clock.Now()`.  Go's `time.Time.Before`/`After` become `<`/`>` on `Nat`.
The Go maps become association lists (iteration order = list order, a
determinization of Go's arbitrary map order); `container/list` becomes a
`List LruItem` whose head is the front.  A `*list.Element` is identified by
the key of the item it carries, which is valid on the reachable states where
list keys are distinct (the invariant proved below).  Lifecycle hooks
(`addedFunc`, `evictedFunc`, `purgeVisitorFunc`) are modelled as presence
flags plus an emitted event list; serialize/deserialize hooks are optional
functions returning a value together with an optional error, exactly the Go
`(value, error)` pairs.
-/

namespace Gcache

/-- Errors: `KeyNotFoundError`, plus opaque errors produced by user hooks. -/
inductive GErr where
  | keyNotFound
  | hookErr (code : Nat)
deriving DecidableEq, Repr

/-- A Go `(interface{}, error)` return: possibly-nil value, possibly-nil error. -/
abbrev GoRes := Option Nat × Option GErr

/-- Hook invocations observable during an operation. -/
inductive Event where
  | added (key value : Nat)
  | evicted (key value : Nat)
  | purgeVisited (key value : Nat)
deriving DecidableEq, Repr

/-- Association-list lookup, modelling Go map indexing `m[k]`. -/
def lookupKV {α : Type} (k : Nat) : List (Nat × α) → Option α
  | [] => none
  | (k', v) :: rest => if k' = k then some v else lookupKV k rest

/-- Association-list deletion of the (first) entry for `k`, modelling
`delete(m, k)` (a Go map holds at most one entry per key). -/
def eraseKV {α : Type} (k : Nat) : List (Nat × α) → List (Nat × α)
  | [] => []
  | (k', v) :: rest => if k' = k then rest else (k', v) :: eraseKV k rest

/-- In-place update of the entry for `k`, modelling a write through the
pointer stored in the map (`item.value = ...`). -/
def updKV {α : Type} (k : Nat) (f : α → α) : List (Nat × α) → List (Nat × α)
  | [] => []
  | (k', v) :: rest =>
      if k' = k then (k', f v) :: updKV k f rest else (k', v) :: updKV k f rest

/-- `c.serializeFunc` applied when configured; the identity otherwise
(mirrors `if c.serializeFunc != nil { value, err = c.serializeFunc(key, value) }`). -/
def serializeStep (sf : Option (Nat → Nat → Nat × Option GErr)) (k v : Nat) :
    Nat × Option GErr :=
  match sf with
  | some f => f k v
  | none => (v, none)

/-! ## SimpleCache (`simple.go`) -/

structure SimpleItem where
  value : Nat
  expiration : Option Nat
deriving DecidableEq, Repr

/-- `simpleItem.IsExpired(nil)`: `si.expiration.Before(now)` (strict). -/
def SimpleItem.isExpired (it : SimpleItem) (now : Nat) : Bool :=
  match it.expiration with
  | none => false
  | some t => t < now

/-- Eligibility test in `SimpleCache.evict`:
`item.expiration == nil || now.After(*item.expiration)`. -/
def SimpleItem.evictable (it : SimpleItem) (now : Nat) : Bool :=
  match it.expiration with
  | none => true
  | some t => t < now

structure SimpleCache where
  size : Nat
  store : List (Nat × SimpleItem)
  expiration : Option Nat
  serializeFunc : Option (Nat → Nat → Nat × Option GErr)
  deserializeFunc : Option (Nat → Nat → GoRes)
  hasLoader : Bool
  loadResult : GoRes
  hasAddedFunc : Bool
  hasEvictedFunc : Bool
  hasPurgeVisitor : Bool
  hitCount : Nat
  missCount : Nat

namespace SimpleCache

/-- `SimpleCache.remove`: delete if present, firing the eviction hook. -/
def remove (c : SimpleCache) (k : Nat) : Option GErr × SimpleCache × List Event :=
  match lookupKV k c.store with
  | some it =>
      (none, { c with store := eraseKV k c.store },
        if c.hasEvictedFunc then [Event.evicted k it.value] else [])
  | none => (some GErr.keyNotFound, c, [])

/-- The scan loop of `SimpleCache.evict`: walk the mapping in iteration
order, collecting keys whose item is evictable, until `count` are found. -/
def evictScan (now count : Nat) : List (Nat × SimpleItem) → Nat → List Nat
  | [], _ => []
  | (k, it) :: rest, current =>
      if count ≤ current then []
      else if it.evictable now then k :: evictScan now count rest (current + 1)
      else evictScan now count rest current

/-- One deferred `c.remove(key)` call, threading the accumulated state and
hook events. -/
def removeStep (acc : SimpleCache × List Event) (k : Nat) : SimpleCache × List Event :=
  ((acc.1.remove k).2.1, acc.2 ++ (acc.1.remove k).2.2)

/-- `SimpleCache.evict(count)`: collect evictable keys, then run the deferred
`c.remove(key)` calls (Go `defer`s run last-collected-first). -/
def evict (c : SimpleCache) (now count : Nat) : SimpleCache × List Event :=
  (evictScan now count c.store 0).reverse.foldl removeStep (c, [])

/-- The tail of `set`: `if c.expiration != nil { item.expiration = now + d }`,
applied to the state holding the freshly stored item. -/
def setExpStep (e : Option Nat) (now k : Nat) (c1 : SimpleCache) : SimpleCache :=
  match e with
  | some d =>
      { c1 with store := updKV k (fun it => { it with expiration := some (now + d) }) c1.store }
  | none => c1

/-- `SimpleCache.set` (the lower-case worker). -/
def set (c : SimpleCache) (now k v : Nat) : Option GErr × SimpleCache × List Event :=
  match serializeStep c.serializeFunc k v with
  | (_, some err) => (some err, c, [])
  | (v', none) =>
    let step1 : SimpleCache × List Event :=
      match lookupKV k c.store with
      | some _ => ({ c with store := updKV k (fun it => { it with value := v' }) c.store }, [])
      | none =>
          let pre : SimpleCache × List Event :=
            if c.size ≤ c.store.length ∧ 0 < c.size then c.evict now 1 else (c, [])
          ({ pre.1 with store := (k, ⟨v', none⟩) :: pre.1.store }, pre.2)
    (none, setExpStep c.expiration now k step1.1,
      step1.2 ++ if c.hasAddedFunc then [Event.added k v'] else [])

/-- Public `Set`. -/
def Set (c : SimpleCache) (now k v : Nat) : Option GErr × SimpleCache × List Event :=
  c.set now k v

/-- Public `SetWithExpire`: run `set`, then overwrite the stored item's
expiration with `clock.Now().Add(expiration)`. -/
def SetWithExpire (c : SimpleCache) (now k v d : Nat) :
    Option GErr × SimpleCache × List Event :=
  match c.set now k v with
  | (some err, c1, ev) => (some err, c1, ev)
  | (none, c1, ev) =>
      (none, { c1 with store := updKV k (fun it => { it with expiration := some (now + d) }) c1.store }, ev)

/-- `SimpleCache.get(key, onLoad)`. -/
def get (c : SimpleCache) (now k : Nat) (onLoad : Bool) :
    GoRes × SimpleCache × List Event :=
  match lookupKV k c.store with
  | none =>
      ((none, some GErr.keyNotFound),
        if onLoad then c else { c with missCount := c.missCount + 1 }, [])
  | some item =>
      if item.isExpired now then
        let r := c.remove k
        ((none, some GErr.keyNotFound), r.2.1, r.2.2)
      else
        let c1 := if onLoad then c else { c with hitCount := c.hitCount + 1 }
        match c.deserializeFunc with
        | some f => (f k item.value, c1, [])
        | none => ((some item.value, none), c1, [])

/-- `SimpleCache.getWithLoader(key, isWait)`.  The `loaderExpireFunc == nil`
branch is taken from the source (return `nil, KeyNotFoundError`).
Modelled from the spec: the load-coordination path (`c.load`, the
`loadGroup` source file is not part of the sources here) is abstracted as
the pre-supplied coordinator outcome `c.loadResult`, with no state change;
its success write-back is out of scope and every theorem below that touches
`Get`/`GetIFPresent` assumes `hasLoader = false`. -/
def getWithLoader (c : SimpleCache) (_k : Nat) (_isWait : Bool) :
    GoRes × SimpleCache × List Event :=
  if c.hasLoader then (c.loadResult, c, []) else ((none, some GErr.keyNotFound), c, [])

/-- Public `Get`: locked `get(key, false)`, then the blocking loader path on
`KeyNotFoundError`. -/
def Get (c : SimpleCache) (now k : Nat) : GoRes × SimpleCache × List Event :=
  match c.get now k false with
  | (r, c1, ev) =>
      if r.2 = some GErr.keyNotFound then
        match c1.getWithLoader k true with
        | (r2, c2, ev2) => (r2, c2, ev ++ ev2)
      else (r, c1, ev)

/-- Public `GetIFPresent`: like `Get` with the non-blocking loader path, but
note the final `return v, nil` — any non-not-found error from `get` is
dropped. -/
def GetIFPresent (c : SimpleCache) (now k : Nat) : GoRes × SimpleCache × List Event :=
  match c.get now k false with
  | (r, c1, ev) =>
      if r.2 = some GErr.keyNotFound then
        match c1.getWithLoader k false with
        | (r2, c2, ev2) => (r2, c2, ev ++ ev2)
      else ((r.1, none), c1, ev)

/-- Public `Remove`. -/
def Remove (c : SimpleCache) (k : Nat) : Option GErr × SimpleCache × List Event :=
  c.remove k

/-- `Len()`: `len(c.store)`. -/
def Len (c : SimpleCache) : Nat := c.store.length

/-- `Purge()`: visit every entry if a purge visitor is configured, then
re-`init` the store. -/
def Purge (c : SimpleCache) : SimpleCache × List Event :=
  ({ c with store := [] },
    if c.hasPurgeVisitor then c.store.map (fun p => Event.purgeVisited p.1 p.2.value) else [])

end SimpleCache

/-! ## LRUCache (the unnamed source file) -/

structure LruItem where
  key : Nat
  value : Nat
  expiration : Option Nat
deriving DecidableEq, Repr

/-- `lruItem.isExpired(nil)`: `it.expiration.Before(now)` (strict). -/
def LruItem.isExpired (it : LruItem) (now : Nat) : Bool :=
  match it.expiration with
  | none => false
  | some t => t < now

/-- The `(it.key, it)` view of a list element, used to relate the hash
mapping to the recency list. -/
def itemPair (it : LruItem) : Nat × LruItem := (it.key, it)

/-- Find the list element carrying key `k` (dereferencing the
`*list.Element` stored in the map, valid under distinct list keys). -/
def findItem (k : Nat) : List LruItem → Option LruItem
  | [] => none
  | it :: rest => if it.key = k then some it else findItem k rest

/-- Remove the (first) list element carrying key `k`
(`container/list.Remove` on that element). -/
def eraseItem (k : Nat) : List LruItem → List LruItem
  | [] => []
  | it :: rest => if it.key = k then rest else it :: eraseItem k rest

/-- In-place update of the item carried by the element with key `k`
(a write through the shared `*lruItem` pointer). -/
def updItem (k : Nat) (f : LruItem → LruItem) : List LruItem → List LruItem
  | [] => []
  | it :: rest =>
      if it.key = k then f it :: updItem k f rest else it :: updItem k f rest

/-- `container/list.MoveToFront` of the element with key `k`; a no-op when
the element is not in the list (as in `container/list`). -/
def moveToFront (k : Nat) (l : List LruItem) : List LruItem :=
  match findItem k l with
  | some it => it :: eraseItem k l
  | none => l

structure LRUCache where
  capacity : Nat
  store : List (Nat × LruItem)
  evictList : List LruItem
  expiration : Option Nat
  serializeFunc : Option (Nat → Nat → Nat × Option GErr)
  deserializeFunc : Option (Nat → Nat → GoRes)
  hasLoader : Bool
  loadResult : GoRes
  hasAddedFunc : Bool
  hasEvictedFunc : Bool
  hasPurgeVisitor : Bool
  hitCount : Nat
  missCount : Nat

/-- The key sequence of the recency list, front first. -/
def keysL (c : LRUCache) : List Nat := c.evictList.map LruItem.key

namespace LRUCache

/-- `LRUCache.removeElement`: unlink from the list, delete from the map,
fire the eviction hook. -/
def removeElement (c : LRUCache) (it : LruItem) : LRUCache × List Event :=
  ({ c with evictList := eraseItem it.key c.evictList, store := eraseKV it.key c.store },
    if c.hasEvictedFunc then [Event.evicted it.key it.value] else [])

/-- `LRUCache.evict(count)`: repeatedly remove the back element. -/
def evict (c : LRUCache) : Nat → LRUCache × List Event
  | 0 => (c, [])
  | n + 1 =>
      match c.evictList.getLast? with
      | none => (c, [])
      | some it =>
          let r := c.removeElement it
          let r2 := r.1.evict n
          (r2.1, r.2 ++ r2.2)

/-- The tail of `set`: `if c.expiration != nil { item.expiration = now + d }`,
written through the shared item pointer, i.e. in both structures. -/
def setExpStep (e : Option Nat) (now k : Nat) (c1 : LRUCache) : LRUCache :=
  match e with
  | some d =>
      { c1 with
          evictList := updItem k (fun it => { it with expiration := some (now + d) }) c1.evictList,
          store := updKV k (fun it => { it with expiration := some (now + d) }) c1.store }
  | none => c1

/-- `LRUCache.set` (the lower-case worker). -/
def set (c : LRUCache) (now k v : Nat) : Option GErr × LRUCache × List Event :=
  match serializeStep c.serializeFunc k v with
  | (_, some err) => (some err, c, [])
  | (v', none) =>
    let step1 : LRUCache × List Event :=
      match lookupKV k c.store with
      | some _ =>
          let cM := { c with evictList := moveToFront k c.evictList }
          ({ cM with
              evictList := updItem k (fun it => { it with value := v' }) cM.evictList,
              store := updKV k (fun it => { it with value := v' }) cM.store }, [])
      | none =>
          let pre : LRUCache × List Event :=
            if c.capacity ≤ c.evictList.length then c.evict 1 else (c, [])
          ({ pre.1 with
              evictList := (⟨k, v', none⟩ : LruItem) :: pre.1.evictList,
              store := (k, (⟨k, v', none⟩ : LruItem)) :: pre.1.store }, pre.2)
    (none, setExpStep c.expiration now k step1.1,
      step1.2 ++ if c.hasAddedFunc then [Event.added k v'] else [])

/-- Public `Set`. -/
def Set (c : LRUCache) (now k v : Nat) : Option GErr × LRUCache × List Event :=
  c.set now k v

/-- Public `SetWithExpire`. -/
def SetWithExpire (c : LRUCache) (now k v d : Nat) :
    Option GErr × LRUCache × List Event :=
  match c.set now k v with
  | (some err, c1, ev) => (some err, c1, ev)
  | (none, c1, ev) =>
      (none,
        { c1 with
            evictList := updItem k (fun it => { it with expiration := some (now + d) }) c1.evictList,
            store := updKV k (fun it => { it with expiration := some (now + d) }) c1.store }, ev)

/-- `LRUCache.get(key, onLoad)`. -/
def get (c : LRUCache) (now k : Nat) (onLoad : Bool) :
    GoRes × LRUCache × List Event :=
  match lookupKV k c.store with
  | none =>
      ((none, some GErr.keyNotFound),
        if onLoad then c else { c with missCount := c.missCount + 1 }, [])
  | some item =>
      if item.isExpired now then
        let r := c.removeElement item
        ((none, some GErr.keyNotFound),
          if onLoad then r.1 else { r.1 with missCount := r.1.missCount + 1 }, r.2)
      else
        let c1 := { c with evictList := moveToFront k c.evictList }
        let c2 := if onLoad then c1 else { c1 with hitCount := c1.hitCount + 1 }
        match c.deserializeFunc with
        | some f => (f k item.value, c2, [])
        | none => ((some item.value, none), c2, [])

/-- `LRUCache.getWithLoader`; same modelling note as for the Simple variant.
Modelled from the spec: the load coordinator's source is absent, its result
is abstracted as `c.loadResult` and theorems assume `hasLoader = false`. -/
def getWithLoader (c : LRUCache) (_k : Nat) (_isWait : Bool) :
    GoRes × LRUCache × List Event :=
  if c.hasLoader then (c.loadResult, c, []) else ((none, some GErr.keyNotFound), c, [])

/-- Public `Get`. -/
def Get (c : LRUCache) (now k : Nat) : GoRes × LRUCache × List Event :=
  match c.get now k false with
  | (r, c1, ev) =>
      if r.2 = some GErr.keyNotFound then
        match c1.getWithLoader k true with
        | (r2, c2, ev2) => (r2, c2, ev ++ ev2)
      else (r, c1, ev)

/-- Public `GetIFPresent`: unlike the Simple variant this one ends with
`return v, err`, propagating the lookup's error. -/
def GetIFPresent (c : LRUCache) (now k : Nat) : GoRes × LRUCache × List Event :=
  match c.get now k false with
  | (r, c1, ev) =>
      if r.2 = some GErr.keyNotFound then
        match c1.getWithLoader k false with
        | (r2, c2, ev2) => (r2, c2, ev ++ ev2)
      else (r, c1, ev)

/-- `LRUCache.remove`. -/
def removeKey (c : LRUCache) (k : Nat) : Option GErr × LRUCache × List Event :=
  match lookupKV k c.store with
  | some it =>
      let r := c.removeElement it
      (none, r.1, r.2)
  | none => (some GErr.keyNotFound, c, [])

/-- Public `Remove`. -/
def Remove (c : LRUCache) (k : Nat) : Option GErr × LRUCache × List Event :=
  c.removeKey k

/-- `Len()`: `len(c.store)`. -/
def Len (c : LRUCache) : Nat := c.store.length

/-- `Purge()`: visit entries, then re-`init` both structures. -/
def Purge (c : LRUCache) : LRUCache × List Event :=
  ({ c with store := [], evictList := [] },
    if c.hasPurgeVisitor then c.store.map (fun p => Event.purgeVisited p.1 p.2.value) else [])

end LRUCache

/-- A freshly built LRU cache (`newLRUCache` + `init`, default builder:
no hooks, no default TTL, no loader). -/
def lruNew (cap : Nat) : LRUCache :=
  { capacity := cap, store := [], evictList := [], expiration := none,
    serializeFunc := none, deserializeFunc := none, hasLoader := false,
    loadResult := (none, some GErr.keyNotFound),
    hasAddedFunc := false, hasEvictedFunc := false, hasPurgeVisitor := false,
    hitCount := 0, missCount := 0 }

/-- A freshly built Simple cache (`newSimpleCache` + `init`, default builder). -/
def simpleNew (sz : Nat) : SimpleCache :=
  { size := sz, store := [], expiration := none,
    serializeFunc := none, deserializeFunc := none, hasLoader := false,
    loadResult := (none, some GErr.keyNotFound),
    hasAddedFunc := false, hasEvictedFunc := false, hasPurgeVisitor := false,
    hitCount := 0, missCount := 0 }

/-- The hash-mapping/recency-list coherence invariant of the LRU variant:
list keys are pairwise distinct and the mapping holds exactly the
`(key, element)` pairs of the list. -/
def lruInv (c : LRUCache) : Prop :=
  (c.evictList.map LruItem.key).Nodup ∧ c.store.Perm (c.evictList.map itemPair)

instance (c : LRUCache) : Decidable (lruInv c) := by
  unfold lruInv; infer_instance

/-! ## Association-list lemmas (the Go maps) -/

theorem lookupKV_eq_none {α : Type} {k : Nat} {s : List (Nat × α)} :
    lookupKV k s = none ↔ k ∉ s.map Prod.fst := by
  induction s with
  | nil => simp [lookupKV]
  | cons p rest ih =>
      obtain ⟨k', v⟩ := p
      by_cases h : k' = k
      · subst h; simp [lookupKV]
      · simp [lookupKV, h, ih, Ne.symm h]

theorem lookupKV_isSome {α : Type} {k : Nat} {s : List (Nat × α)} :
    (lookupKV k s).isSome ↔ k ∈ s.map Prod.fst := by
  rw [← Decidable.not_not (p := k ∈ s.map Prod.fst), ← lookupKV_eq_none]
  cases h : lookupKV k s <;> simp

theorem lookupKV_mem {α : Type} {k : Nat} {v : α} {s : List (Nat × α)}
    (h : lookupKV k s = some v) : (k, v) ∈ s := by
  induction s with
  | nil => simp [lookupKV] at h
  | cons p rest ih =>
      obtain ⟨k', v'⟩ := p
      by_cases hk : k' = k
      · subst hk
        simp [lookupKV] at h
        subst h; exact List.mem_cons_self _ _
      · simp [lookupKV, hk] at h
        exact List.mem_cons_of_mem _ (ih h)

theorem mem_lookupKV {α : Type} {k : Nat} {v : α} {s : List (Nat × α)}
    (hnd : (s.map Prod.fst).Nodup) (h : (k, v) ∈ s) : lookupKV k s = some v := by
  induction s with
  | nil => simp at h
  | cons p rest ih =>
      obtain ⟨k', v'⟩ := p
      simp only [List.map_cons, List.nodup_cons] at hnd
      rcases List.mem_cons.1 h with h1 | h1
      · obtain ⟨rfl, rfl⟩ := Prod.mk.injEq .. ▸ h1
        simp [lookupKV]
      · have hne : k' ≠ k := by
          rintro rfl
          exact hnd.1 (List.mem_map.2 ⟨(k', v), h1, rfl⟩)
        simp [lookupKV, hne, ih hnd.2 h1]

theorem exists_of_mem_map_fst {α : Type} {k : Nat} {s : List (Nat × α)}
    (h : k ∈ s.map Prod.fst) : ∃ v, (k, v) ∈ s := by
  rcases List.mem_map.1 h with ⟨p, hp, hk⟩
  exact ⟨p.2, by rwa [show (k, p.2) = p from by rw [← hk]]⟩

theorem eraseKV_of_not_mem {α : Type} {k : Nat} {s : List (Nat × α)}
    (h : k ∉ s.map Prod.fst) : eraseKV k s = s := by
  induction s with
  | nil => rfl
  | cons p rest ih =>
      obtain ⟨k', v'⟩ := p
      simp only [List.map_cons, List.mem_cons] at h
      push_neg at h
      have h1 : k' ≠ k := fun hh => h.1 hh.symm
      simp [eraseKV, h1, ih h.2]

theorem eraseKV_sublist {α : Type} (k : Nat) (s : List (Nat × α)) :
    (eraseKV k s).Sublist s := by
  induction s with
  | nil => simp [eraseKV]
  | cons p rest ih =>
      obtain ⟨k', v'⟩ := p
      by_cases h : k' = k
      · simp [eraseKV, h]
      · simpa [eraseKV, h] using List.Sublist.cons₂ (k', v') ih

theorem map_fst_eraseKV {α : Type} (k : Nat) (s : List (Nat × α)) :
    (eraseKV k s).map Prod.fst = (s.map Prod.fst).erase k := by
  induction s with
  | nil => rfl
  | cons p rest ih =>
      obtain ⟨k', v'⟩ := p
      by_cases h : k' = k
      · subst h; simp [eraseKV, List.erase_cons_head]
      · simp [eraseKV, h, ih, List.erase_cons_tail, (by simpa using h : ¬ (k' == k) = true)]

theorem length_eraseKV_of_mem {α : Type} {k : Nat} {s : List (Nat × α)}
    (h : k ∈ s.map Prod.fst) : (eraseKV k s).length + 1 = s.length := by
  induction s with
  | nil => simp at h
  | cons p rest ih =>
      obtain ⟨k', v'⟩ := p
      by_cases hk : k' = k
      · simp [eraseKV, hk]
      · simp only [List.map_cons, List.mem_cons] at h
        rcases h with h | h
        · exact absurd h.symm hk
        · simp [eraseKV, hk, ih h]

theorem lookupKV_eraseKV_self {α : Type} {k : Nat} {s : List (Nat × α)}
    (hnd : (s.map Prod.fst).Nodup) : lookupKV k (eraseKV k s) = none := by
  rw [lookupKV_eq_none, map_fst_eraseKV]
  exact (hnd.erase_eq_filter k ▸ List.mem_filter).mp.mt (by simp)

theorem lookupKV_eraseKV_ne {α : Type} {k k' : Nat} {s : List (Nat × α)}
    (h : k' ≠ k) : lookupKV k' (eraseKV k s) = lookupKV k' s := by
  induction s with
  | nil => rfl
  | cons p rest ih =>
      obtain ⟨k0, v0⟩ := p
      by_cases h0 : k0 = k
      · subst h0
        have hne := Ne.symm h
        simp [eraseKV, lookupKV, hne]
      · by_cases h1 : k0 = k'
        · subst h1; simp [eraseKV, h0, lookupKV]
        · simp [eraseKV, h0, lookupKV, h1, ih]

theorem perm_cons_eraseKV {α : Type} {k : Nat} {v : α} {s : List (Nat × α)}
    (hnd : (s.map Prod.fst).Nodup) (h : (k, v) ∈ s) :
    ((k, v) :: eraseKV k s).Perm s := by
  induction s with
  | nil => simp at h
  | cons p rest ih =>
      obtain ⟨k', v'⟩ := p
      simp only [List.map_cons, List.nodup_cons] at hnd
      rcases List.mem_cons.1 h with h1 | h1
      · obtain ⟨rfl, rfl⟩ := Prod.mk.injEq .. ▸ h1
        simp [eraseKV]
      · have hne : k' ≠ k := by
          rintro rfl
          exact hnd.1 (List.mem_map.2 ⟨(k', v), h1, rfl⟩)
        have e1 : eraseKV k ((k', v') :: rest) = (k', v') :: eraseKV k rest := by
          simp [eraseKV, hne]
        rw [e1]
        exact (List.Perm.swap (k', v') (k, v) (eraseKV k rest)).trans
          ((ih hnd.2 h1).cons (k', v'))

theorem eraseKV_perm {α : Type} {k : Nat} {s t : List (Nat × α)}
    (hnd : (s.map Prod.fst).Nodup) (h : s.Perm t) :
    (eraseKV k s).Perm (eraseKV k t) := by
  by_cases hm : k ∈ s.map Prod.fst
  · obtain ⟨v, hv⟩ := exists_of_mem_map_fst hm
    have hndt : (t.map Prod.fst).Nodup := (h.map Prod.fst).nodup_iff.1 hnd
    have h1 := perm_cons_eraseKV hnd hv
    have h2 := perm_cons_eraseKV hndt (h.mem_iff.1 hv)
    exact (h1.trans (h.trans h2.symm)).cons_inv
  · have hm' : k ∉ t.map Prod.fst := fun hh => hm ((h.map Prod.fst).mem_iff.2 hh)
    rw [eraseKV_of_not_mem hm, eraseKV_of_not_mem hm']
    exact h

theorem map_fst_updKV {α : Type} (k : Nat) (f : α → α) (s : List (Nat × α)) :
    (updKV k f s).map Prod.fst = s.map Prod.fst := by
  induction s with
  | nil => rfl
  | cons p rest ih =>
      obtain ⟨k', v'⟩ := p
      by_cases h : k' = k <;> simp [updKV, h, ih]

theorem length_updKV {α : Type} (k : Nat) (f : α → α) (s : List (Nat × α)) :
    (updKV k f s).length = s.length := by
  induction s with
  | nil => rfl
  | cons p rest ih =>
      obtain ⟨k', v'⟩ := p
      by_cases h : k' = k <;> simp [updKV, h, ih]

theorem lookupKV_updKV_self {α : Type} (k : Nat) (f : α → α) (s : List (Nat × α)) :
    lookupKV k (updKV k f s) = (lookupKV k s).map f := by
  induction s with
  | nil => rfl
  | cons p rest ih =>
      obtain ⟨k', v'⟩ := p
      by_cases h : k' = k
      · subst h; simp [updKV, lookupKV]
      · simp [updKV, lookupKV, h, ih]

theorem lookupKV_updKV_ne {α : Type} {k k' : Nat} (f : α → α) {s : List (Nat × α)}
    (h : k' ≠ k) : lookupKV k' (updKV k f s) = lookupKV k' s := by
  induction s with
  | nil => rfl
  | cons p rest ih =>
      obtain ⟨k0, v0⟩ := p
      by_cases h0 : k0 = k
      · subst h0
        have hne := Ne.symm h
        simp [updKV, lookupKV, hne, ih]
      · by_cases h1 : k0 = k'
        · subst h1; simp [updKV, lookupKV, h0]
        · simp [updKV, lookupKV, h0, h1, ih]

/-! ## Recency-list lemmas -/

theorem findItem_eq_none {k : Nat} {l : List LruItem} :
    findItem k l = none ↔ k ∉ l.map LruItem.key := by
  induction l with
  | nil => simp [findItem]
  | cons it rest ih =>
      by_cases h : it.key = k
      · subst h; simp [findItem]
      · have h' : ¬ k = it.key := fun hh => h hh.symm
        simp [findItem, h, h', ih]

theorem findItem_isSome {k : Nat} {l : List LruItem} :
    (findItem k l).isSome ↔ k ∈ l.map LruItem.key := by
  rw [← Decidable.not_not (p := k ∈ l.map LruItem.key), ← findItem_eq_none]
  cases h : findItem k l <;> simp

theorem findItem_some {k : Nat} {it : LruItem} {l : List LruItem}
    (h : findItem k l = some it) : it.key = k ∧ it ∈ l := by
  induction l with
  | nil => simp [findItem] at h
  | cons it' rest ih =>
      by_cases hk : it'.key = k
      · simp [findItem, hk] at h
        subst h; exact ⟨hk, List.mem_cons_self _ _⟩
      · simp [findItem, hk] at h
        exact ⟨(ih h).1, List.mem_cons_of_mem _ (ih h).2⟩

theorem mem_findItem {k : Nat} {it : LruItem} {l : List LruItem}
    (hnd : (l.map LruItem.key).Nodup) (h : it ∈ l) (hk : it.key = k) :
    findItem k l = some it := by
  induction l with
  | nil => simp at h
  | cons it' rest ih =>
      simp only [List.map_cons, List.nodup_cons] at hnd
      rcases List.mem_cons.1 h with h1 | h1
      · subst h1; simp [findItem, hk]
      · have hne : it'.key ≠ k := by
          rintro rfl
          exact hnd.1 (List.mem_map.2 ⟨it, h1, hk⟩)
        simp [findItem, hne, ih hnd.2 h1]

theorem eraseItem_of_not_mem {k : Nat} {l : List LruItem}
    (h : k ∉ l.map LruItem.key) : eraseItem k l = l := by
  induction l with
  | nil => rfl
  | cons it rest ih =>
      simp only [List.map_cons, List.mem_cons] at h
      push_neg at h
      have h1 : it.key ≠ k := fun hh => h.1 hh.symm
      simp [eraseItem, h1, ih h.2]

theorem eraseItem_sublist (k : Nat) (l : List LruItem) :
    (eraseItem k l).Sublist l := by
  induction l with
  | nil => simp [eraseItem]
  | cons it rest ih =>
      by_cases h : it.key = k
      · simp [eraseItem, h]
      · simpa [eraseItem, h] using List.Sublist.cons₂ it ih

theorem map_key_eraseItem (k : Nat) (l : List LruItem) :
    (eraseItem k l).map LruItem.key = (l.map LruItem.key).erase k := by
  induction l with
  | nil => rfl
  | cons it rest ih =>
      by_cases h : it.key = k
      · simp [eraseItem, h, List.erase_cons_head]
      · simp [eraseItem, h, ih, List.erase_cons_tail,
          (by simpa using h : ¬ (it.key == k) = true)]

theorem map_itemPair_eraseItem (k : Nat) (l : List LruItem) :
    (eraseItem k l).map itemPair = eraseKV k (l.map itemPair) := by
  induction l with
  | nil => rfl
  | cons it rest ih =>
      by_cases h : it.key = k <;> simp [eraseItem, eraseKV, itemPair, h, ih]

theorem length_eraseItem_of_mem {k : Nat} {l : List LruItem}
    (h : k ∈ l.map LruItem.key) : (eraseItem k l).length + 1 = l.length := by
  induction l with
  | nil => simp at h
  | cons it rest ih =>
      by_cases hk : it.key = k
      · simp [eraseItem, hk]
      · simp only [List.map_cons, List.mem_cons] at h
        rcases h with h | h
        · exact absurd h.symm hk
        · simp [eraseItem, hk, ih h]

theorem perm_cons_eraseItem {k : Nat} {it : LruItem} {l : List LruItem}
    (h : findItem k l = some it) : (it :: eraseItem k l).Perm l := by
  induction l with
  | nil => simp [findItem] at h
  | cons it' rest ih =>
      by_cases hk : it'.key = k
      · simp [findItem, hk] at h
        subst h
        simp [eraseItem, hk]
      · simp only [findItem, hk, if_neg] at h
        have e1 : eraseItem k (it' :: rest) = it' :: eraseItem k rest := by
          simp [eraseItem, hk]
        rw [e1]
        exact (List.Perm.swap it' it (eraseItem k rest)).trans ((ih h).cons it')

theorem moveToFront_perm (k : Nat) (l : List LruItem) :
    (moveToFront k l).Perm l := by
  unfold moveToFront
  cases h : findItem k l with
  | none => exact List.Perm.refl l
  | some it => exact perm_cons_eraseItem h

theorem map_key_moveToFront {k : Nat} {l : List LruItem}
    (h : k ∈ l.map LruItem.key) :
    (moveToFront k l).map LruItem.key = k :: (l.map LruItem.key).erase k := by
  unfold moveToFront
  cases hf : findItem k l with
  | none => exact absurd (findItem_eq_none.1 hf) (by simpa using h)
  | some it =>
      simp [List.map_cons, (findItem_some hf).1, map_key_eraseItem]

theorem map_key_moveToFront_of_not_mem {k : Nat} {l : List LruItem}
    (h : k ∉ l.map LruItem.key) : moveToFront k l = l := by
  unfold moveToFront
  rw [findItem_eq_none.2 h]

theorem length_moveToFront (k : Nat) (l : List LruItem) :
    (moveToFront k l).length = l.length :=
  (moveToFront_perm k l).length_eq

theorem map_key_updItem {k : Nat} {f : LruItem → LruItem}
    (hf : ∀ it, (f it).key = it.key) (l : List LruItem) :
    (updItem k f l).map LruItem.key = l.map LruItem.key := by
  induction l with
  | nil => rfl
  | cons it rest ih =>
      by_cases h : it.key = k <;> simp [updItem, h, hf, ih]

theorem map_itemPair_updItem {k : Nat} {f : LruItem → LruItem}
    (hf : ∀ it, (f it).key = it.key) (l : List LruItem) :
    (updItem k f l).map itemPair = updKV k f (l.map itemPair) := by
  induction l with
  | nil => rfl
  | cons it rest ih =>
      by_cases h : it.key = k <;> simp [updItem, updKV, itemPair, h, hf, ih]

theorem length_updItem (k : Nat) (f : LruItem → LruItem) (l : List LruItem) :
    (updItem k f l).length = l.length := by
  induction l with
  | nil => rfl
  | cons it rest ih =>
      by_cases h : it.key = k <;> simp [updItem, h, ih]

theorem getLast?_map_key (l : List LruItem) :
    (l.map LruItem.key).getLast? = l.getLast?.map LruItem.key := by
  induction l with
  | nil => rfl
  | cons it rest ih =>
      cases rest with
      | nil => rfl
      | cons it' rest' =>
          simpa [List.getLast?_cons_cons] using ih

theorem getLast?_mem {α : Type} {l : List α} {a : α} (h : l.getLast? = some a) :
    a ∈ l := by
  induction l with
  | nil => simp at h
  | cons x rest ih =>
      cases rest with
      | nil =>
          simp [List.getLast?_singleton] at h
          subst h; exact List.mem_cons_self _ _
      | cons y rest' =>
          rw [List.getLast?_cons_cons] at h
          exact List.mem_cons_of_mem _ (ih h)

theorem eraseItem_getLast {l : List LruItem} {it : LruItem}
    (hnd : (l.map LruItem.key).Nodup) (h : l.getLast? = some it) :
    eraseItem it.key l = l.dropLast := by
  induction l with
  | nil => simp at h
  | cons x rest ih =>
      cases rest with
      | nil =>
          simp [List.getLast?_singleton] at h
          subst h
          simp [eraseItem]
      | cons y rest' =>
          rw [List.getLast?_cons_cons] at h
          rw [List.map_cons] at hnd
          obtain ⟨hx, hnd2⟩ := List.nodup_cons.mp hnd
          have hmem : it ∈ y :: rest' := getLast?_mem h
          have hne : x.key ≠ it.key := by
            intro hh
            exact hx (hh ▸ List.mem_map.2 ⟨it, hmem, rfl⟩)
          have e1 : eraseItem it.key (x :: y :: rest') =
              x :: eraseItem it.key (y :: rest') := by
            simp [eraseItem, hne]
          rw [e1, ih hnd2 h]
          simp [List.dropLast]

/-! ## Consequences and preservation of the LRU invariant -/

theorem map_fst_map_itemPair (l : List LruItem) :
    (l.map itemPair).map Prod.fst = l.map LruItem.key := by
  induction l with
  | nil => rfl
  | cons it rest ih => simp [itemPair, ih]

theorem lruInv.store_nodup {c : LRUCache} (h : lruInv c) :
    (c.store.map Prod.fst).Nodup := by
  have hp := h.2.map Prod.fst
  rw [map_fst_map_itemPair] at hp
  exact hp.nodup_iff.2 h.1

theorem lruInv.length_eq {c : LRUCache} (h : lruInv c) :
    c.store.length = c.evictList.length := by
  have := h.2.length_eq
  simpa using this

theorem lruInv.map_fst_perm {c : LRUCache} (h : lruInv c) :
    (c.store.map Prod.fst).Perm (keysL c) := by
  have hp := h.2.map Prod.fst
  rwa [map_fst_map_itemPair] at hp

theorem lruInv.lookup_eq {c : LRUCache} (h : lruInv c) (k : Nat) :
    lookupKV k c.store = findItem k c.evictList := by
  cases hf : findItem k c.evictList with
  | none =>
      have hk : k ∉ keysL c := findItem_eq_none.1 hf
      have hk' : k ∉ c.store.map Prod.fst := fun hh => hk (h.map_fst_perm.mem_iff.1 hh)
      exact lookupKV_eq_none.2 hk'
  | some it =>
      obtain ⟨hkey, hmem⟩ := findItem_some hf
      have hpair : (k, it) ∈ c.evictList.map itemPair :=
        List.mem_map.2 ⟨it, hmem, by simp [itemPair, hkey]⟩
      exact mem_lookupKV h.store_nodup (h.2.mem_iff.2 hpair)

theorem lruInv.lookup_isSome {c : LRUCache} (h : lruInv c) (k : Nat) :
    (lookupKV k c.store).isSome ↔ k ∈ keysL c := by
  rw [h.lookup_eq k]; exact findItem_isSome

theorem updKV_eq_map {α : Type} (k : Nat) (f : α → α) (s : List (Nat × α)) :
    updKV k f s = s.map (fun p => if p.1 = k then (p.1, f p.2) else p) := by
  induction s with
  | nil => rfl
  | cons p rest ih =>
      obtain ⟨k', v'⟩ := p
      by_cases h : k' = k <;> simp [updKV, h, ih]

theorem updKV_perm {α : Type} {s t : List (Nat × α)} (k : Nat) (f : α → α)
    (h : s.Perm t) : (updKV k f s).Perm (updKV k f t) := by
  rw [updKV_eq_map, updKV_eq_map]
  exact h.map _

theorem SimpleCache.setExpStep_none_simple (now k : Nat) (c1 : SimpleCache) :
    SimpleCache.setExpStep none now k c1 = c1 := rfl

theorem LRUCache.setExpStep_none (now k : Nat) (c1 : LRUCache) :
    LRUCache.setExpStep none now k c1 = c1 := rfl

theorem LRUCache.setExpStep_Len (e : Option Nat) (now k : Nat) (c1 : LRUCache) :
    (LRUCache.setExpStep e now k c1).Len = c1.Len := by
  cases e with
  | none => rfl
  | some d =>
      show (updKV k _ c1.store).length = c1.store.length
      exact length_updKV _ _ _

theorem LRUCache.setExpStep_capacity (e : Option Nat) (now k : Nat) (c1 : LRUCache) :
    (LRUCache.setExpStep e now k c1).capacity = c1.capacity := by
  cases e <;> rfl

theorem lruInv_removeElement {c : LRUCache} (h : lruInv c) (it : LruItem) :
    lruInv (c.removeElement it).1 := by
  constructor
  · show ((eraseItem it.key c.evictList).map LruItem.key).Nodup
    rw [map_key_eraseItem]
    exact h.1.erase _
  · show (eraseKV it.key c.store).Perm ((eraseItem it.key c.evictList).map itemPair)
    rw [map_itemPair_eraseItem]
    exact eraseKV_perm h.store_nodup h.2

theorem removeElement_evictList (c : LRUCache) (it : LruItem) :
    (c.removeElement it).1.evictList = eraseItem it.key c.evictList := rfl

theorem removeElement_store (c : LRUCache) (it : LruItem) :
    (c.removeElement it).1.store = eraseKV it.key c.store := rfl

theorem lruInv_moveToFront {c : LRUCache} (h : lruInv c) (k : Nat) :
    lruInv { c with evictList := moveToFront k c.evictList } := by
  constructor
  · exact ((moveToFront_perm k c.evictList).map LruItem.key).nodup_iff.2 h.1
  · exact h.2.trans ((moveToFront_perm k c.evictList).map itemPair).symm

theorem lruInv_upd {c : LRUCache} (h : lruInv c) (k : Nat) {f : LruItem → LruItem}
    (hf : ∀ it, (f it).key = it.key) :
    lruInv { c with evictList := updItem k f c.evictList,
                    store := updKV k f c.store } := by
  constructor
  · show ((updItem k f c.evictList).map LruItem.key).Nodup
    rw [map_key_updItem hf]
    exact h.1
  · show (updKV k f c.store).Perm ((updItem k f c.evictList).map itemPair)
    rw [map_itemPair_updItem hf]
    exact updKV_perm k f h.2

theorem lruInv_setExpStep {c1 : LRUCache} (h : lruInv c1) (e : Option Nat)
    (now k : Nat) : lruInv (LRUCache.setExpStep e now k c1) := by
  cases e with
  | none => exact h
  | some d => exact lruInv_upd h k (fun it => rfl)

theorem lruInv_cons {c : LRUCache} (h : lruInv c) {k : Nat} (v : Nat)
    (hk : k ∉ keysL c) :
    lruInv { c with evictList := (⟨k, v, none⟩ : LruItem) :: c.evictList,
                    store := (k, (⟨k, v, none⟩ : LruItem)) :: c.store } := by
  constructor
  · exact List.nodup_cons.2 ⟨hk, h.1⟩
  · show ((k, (⟨k, v, none⟩ : LruItem)) :: c.store).Perm
      (((⟨k, v, none⟩ : LruItem) :: c.evictList).map itemPair)
    simpa [itemPair] using h.2.cons (k, (⟨k, v, none⟩ : LruItem))

theorem lruInv_evict {c : LRUCache} (h : lruInv c) (n : Nat) :
    lruInv (c.evict n).1 := by
  induction n generalizing c with
  | zero => exact h
  | succ m ih =>
      unfold LRUCache.evict
      cases hl : c.evictList.getLast? with
      | none => exact h
      | some it => exact ih (lruInv_removeElement h it)

theorem evict_evictList_sublist (c : LRUCache) (n : Nat) :
    (c.evict n).1.evictList.Sublist c.evictList := by
  induction n generalizing c with
  | zero => exact List.Sublist.refl _
  | succ m ih =>
      unfold LRUCache.evict
      cases hl : c.evictList.getLast? with
      | none => exact List.Sublist.refl _
      | some it =>
          exact (ih (c.removeElement it).1).trans (eraseItem_sublist _ _)

theorem lruInv_set {c : LRUCache} (h : lruInv c) (now k v : Nat) :
    lruInv (c.set now k v).2.1 := by
  unfold LRUCache.set
  cases hs : serializeStep c.serializeFunc k v with
  | mk v' e =>
      cases e with
      | some err => exact h
      | none =>
          simp only
          have key_step1 : ∀ (c1 : LRUCache), lruInv c1 →
              lruInv (LRUCache.setExpStep c.expiration now k c1) := by
            intro c1 h1
            exact lruInv_setExpStep h1 c.expiration now k
          cases hl : lookupKV k c.store with
          | some it0 =>
              apply key_step1
              exact lruInv_upd (lruInv_moveToFront h k) k (fun it => rfl)
          | none =>
              apply key_step1
              by_cases hcap : c.capacity ≤ c.evictList.length
              · simp only [hcap, if_pos]
                have hinv1 := lruInv_evict h 1
                have hk1 : k ∉ keysL (c.evict 1).1 := by
                  intro hmem
                  have hsub := (evict_evictList_sublist c 1).map LruItem.key
                  have : k ∈ keysL c := hsub.mem hmem
                  have := (h.lookup_isSome k).2 this
                  rw [hl] at this
                  simp at this
                exact lruInv_cons hinv1 v' hk1
              · simp only [hcap, if_neg, if_false]
                have hk1 : k ∉ keysL c := by
                  intro hmem
                  have := (h.lookup_isSome k).2 hmem
                  rw [hl] at this
                  simp at this
                exact lruInv_cons h v' hk1

theorem lruInv_counters {c : LRUCache} (h : lruInv c) {hits misses : Nat} :
    lruInv { c with hitCount := hits, missCount := misses } := h

theorem lruInv_setWithExpire {c : LRUCache} (h : lruInv c) (now k v d : Nat) :
    lruInv (c.SetWithExpire now k v d).2.1 := by
  unfold LRUCache.SetWithExpire
  have hset := lruInv_set h now k v
  cases hs : c.set now k v with
  | mk e rest =>
      obtain ⟨c1, ev⟩ := rest
      have h1 : lruInv c1 := by rw [hs] at hset; exact hset
      cases e with
      | some err => exact h1
      | none => exact lruInv_upd h1 k (fun it => rfl)

theorem lruInv_get {c : LRUCache} (h : lruInv c) (now k : Nat) (onLoad : Bool) :
    lruInv (c.get now k onLoad).2.1 := by
  unfold LRUCache.get
  cases hl : lookupKV k c.store with
  | none =>
      cases onLoad <;> exact h
  | some item =>
      by_cases he : item.isExpired now
      · simp only [he, if_pos]
        have hrm := lruInv_removeElement h item
        cases onLoad <;> exact hrm
      · simp only [he, if_neg, Bool.false_eq_true, if_false]
        have hm := lruInv_moveToFront h k
        cases hd : c.deserializeFunc with
        | some f => cases onLoad <;> exact hm
        | none => cases onLoad <;> exact hm

theorem lruInv_Get {c : LRUCache} (h : lruInv c) (now k : Nat) :
    lruInv (c.Get now k).2.1 := by
  unfold LRUCache.Get
  have hg := lruInv_get h now k false
  cases hres : c.get now k false with
  | mk r rest =>
      obtain ⟨c1, ev⟩ := rest
      have h1 : lruInv c1 := by rw [hres] at hg; exact hg
      by_cases hnf : r.2 = some GErr.keyNotFound
      · simp only [hnf, if_pos]
        unfold LRUCache.getWithLoader
        by_cases hld : c1.hasLoader <;> simp [hld] <;> exact h1
      · simp only [hnf, if_neg, if_false]
        exact h1

theorem lruInv_GetIFPresent {c : LRUCache} (h : lruInv c) (now k : Nat) :
    lruInv (c.GetIFPresent now k).2.1 := by
  unfold LRUCache.GetIFPresent
  have hg := lruInv_get h now k false
  cases hres : c.get now k false with
  | mk r rest =>
      obtain ⟨c1, ev⟩ := rest
      have h1 : lruInv c1 := by rw [hres] at hg; exact hg
      by_cases hnf : r.2 = some GErr.keyNotFound
      · simp only [hnf, if_pos]
        unfold LRUCache.getWithLoader
        by_cases hld : c1.hasLoader <;> simp [hld] <;> exact h1
      · simp only [hnf, if_neg, if_false]
        exact h1

theorem lruInv_removeKey {c : LRUCache} (h : lruInv c) (k : Nat) :
    lruInv (c.removeKey k).2.1 := by
  unfold LRUCache.removeKey
  cases hl : lookupKV k c.store with
  | none => exact h
  | some it => exact lruInv_removeElement h it

theorem lruInv_Purge (c : LRUCache) : lruInv c.Purge.1 := by
  constructor
  · simp [LRUCache.Purge]
  · simp [LRUCache.Purge]

/-! ## Equation lemmas for the Simple variant's operations -/

theorem SimpleCache.set_existing_simple {c : SimpleCache} {k : Nat} {it0 : SimpleItem}
    (hser : c.serializeFunc = none) (hexp : c.expiration = none)
    (hl : lookupKV k c.store = some it0) (now v : Nat) :
    c.set now k v =
      (none, { c with store := updKV k (fun it => { it with value := v }) c.store },
        if c.hasAddedFunc then [Event.added k v] else []) := by
  simp only [SimpleCache.set, hser, serializeStep, hl, hexp,
    SimpleCache.setExpStep, List.nil_append]

theorem SimpleCache.set_new_noevict_simple {c : SimpleCache} {k : Nat}
    (hser : c.serializeFunc = none) (hexp : c.expiration = none)
    (hl : lookupKV k c.store = none)
    (hcap : ¬ (c.size ≤ c.store.length ∧ 0 < c.size)) (now v : Nat) :
    c.set now k v =
      (none, { c with store := (k, (⟨v, none⟩ : SimpleItem)) :: c.store },
        if c.hasAddedFunc then [Event.added k v] else []) := by
  simp only [SimpleCache.set, hser, serializeStep, hl, hexp, hcap,
    SimpleCache.setExpStep, if_neg, if_false, List.nil_append]

theorem SimpleCache.get_miss_simple {c : SimpleCache} {k : Nat}
    (hl : lookupKV k c.store = none) (now : Nat) :
    c.get now k false =
      ((none, some GErr.keyNotFound), { c with missCount := c.missCount + 1 }, []) := by
  simp only [SimpleCache.get, hl, Bool.false_eq_true, if_false]

theorem SimpleCache.get_hit_simple {c : SimpleCache} {k : Nat} {it : SimpleItem}
    (hl : lookupKV k c.store = some it) (hexp : it.isExpired now = false)
    (hdes : c.deserializeFunc = none) :
    c.get now k false =
      ((some it.value, none), { c with hitCount := c.hitCount + 1 }, []) := by
  simp only [SimpleCache.get, hl, hexp, hdes, Bool.false_eq_true, if_false]

theorem SimpleCache.get_expired_simple {c : SimpleCache} {k : Nat} {it : SimpleItem}
    (hl : lookupKV k c.store = some it) (hexp : it.isExpired now = true) :
    c.get now k false =
      ((none, some GErr.keyNotFound), { c with store := eraseKV k c.store },
        if c.hasEvictedFunc then [Event.evicted k it.value] else []) := by
  simp only [SimpleCache.get, SimpleCache.remove, hl, hexp, if_true]

theorem SimpleCache.Get_miss_simple {c : SimpleCache} {k : Nat}
    (hld : c.hasLoader = false) (hl : lookupKV k c.store = none) (now : Nat) :
    c.Get now k =
      ((none, some GErr.keyNotFound), { c with missCount := c.missCount + 1 }, []) := by
  unfold SimpleCache.Get
  rw [SimpleCache.get_miss_simple hl now]
  have hcond : ¬ (c.hasLoader = true) := by simp [hld]
  simp [SimpleCache.getWithLoader, hcond]

theorem SimpleCache.Get_hit_simple {c : SimpleCache} {now k : Nat} {it : SimpleItem}
    (hl : lookupKV k c.store = some it) (hexp : it.isExpired now = false)
    (hdes : c.deserializeFunc = none) :
    c.Get now k =
      ((some it.value, none), { c with hitCount := c.hitCount + 1 }, []) := by
  unfold SimpleCache.Get
  rw [SimpleCache.get_hit_simple hl hexp hdes]
  simp

theorem SimpleCache.Get_expired_simple {c : SimpleCache} {now k : Nat} {it : SimpleItem}
    (hld : c.hasLoader = false)
    (hl : lookupKV k c.store = some it) (hexp : it.isExpired now = true) :
    c.Get now k =
      ((none, some GErr.keyNotFound), { c with store := eraseKV k c.store },
        if c.hasEvictedFunc then [Event.evicted k it.value] else []) := by
  unfold SimpleCache.Get
  rw [SimpleCache.get_expired_simple hl hexp]
  have hcond : ¬ (c.hasLoader = true) := by simp [hld]
  simp [SimpleCache.getWithLoader, hcond]

/-! ## Equation lemmas for the LRU variant's operations -/

theorem LRUCache.set_existing {c : LRUCache} {k : Nat} {it0 : LruItem}
    (hser : c.serializeFunc = none) (hexp : c.expiration = none)
    (hl : lookupKV k c.store = some it0) (now v : Nat) :
    c.set now k v =
      (none,
       { c with
           evictList := updItem k (fun it => { it with value := v }) (moveToFront k c.evictList),
           store := updKV k (fun it => { it with value := v }) c.store },
       if c.hasAddedFunc then [Event.added k v] else []) := by
  simp only [LRUCache.set, hser, serializeStep, hl, hexp,
    LRUCache.setExpStep, List.nil_append]

theorem LRUCache.set_new_noevict {c : LRUCache} {k : Nat}
    (hser : c.serializeFunc = none) (hexp : c.expiration = none)
    (hl : lookupKV k c.store = none)
    (hcap : ¬ c.capacity ≤ c.evictList.length) (now v : Nat) :
    c.set now k v =
      (none,
       { c with evictList := (⟨k, v, none⟩ : LruItem) :: c.evictList,
                store := (k, (⟨k, v, none⟩ : LruItem)) :: c.store },
       if c.hasAddedFunc then [Event.added k v] else []) := by
  simp only [LRUCache.set, hser, serializeStep, hl, hexp, hcap,
    LRUCache.setExpStep, if_neg, if_false, List.nil_append]

theorem LRUCache.set_new_evict {c : LRUCache} {k : Nat} {itl : LruItem}
    (hser : c.serializeFunc = none) (hexp : c.expiration = none)
    (hl : lookupKV k c.store = none)
    (hcap : c.capacity ≤ c.evictList.length)
    (hlast : c.evictList.getLast? = some itl) (now v : Nat) :
    c.set now k v =
      (none,
       { c with
           evictList := (⟨k, v, none⟩ : LruItem) :: eraseItem itl.key c.evictList,
           store := (k, (⟨k, v, none⟩ : LruItem)) :: eraseKV itl.key c.store },
       (if c.hasEvictedFunc then [Event.evicted itl.key itl.value] else []) ++
         if c.hasAddedFunc then [Event.added k v] else []) := by
  simp only [LRUCache.set, hser, serializeStep, hl, hexp, hcap, if_pos,
    LRUCache.setExpStep, LRUCache.evict, hlast, LRUCache.removeElement,
    List.append_nil, List.nil_append]

theorem LRUCache.get_miss {c : LRUCache} {k : Nat}
    (hl : lookupKV k c.store = none) (now : Nat) :
    c.get now k false =
      ((none, some GErr.keyNotFound), { c with missCount := c.missCount + 1 }, []) := by
  simp only [LRUCache.get, hl, Bool.false_eq_true, if_false]

theorem LRUCache.get_hit {c : LRUCache} {now k : Nat} {it : LruItem}
    (hl : lookupKV k c.store = some it) (hexp : it.isExpired now = false)
    (hdes : c.deserializeFunc = none) :
    c.get now k false =
      ((some it.value, none),
       { c with evictList := moveToFront k c.evictList, hitCount := c.hitCount + 1 }, []) := by
  simp only [LRUCache.get, hl, hexp, hdes, Bool.false_eq_true, if_false]

theorem LRUCache.get_expired {c : LRUCache} {now k : Nat} {it : LruItem}
    (hl : lookupKV k c.store = some it) (hexp : it.isExpired now = true) :
    c.get now k false =
      ((none, some GErr.keyNotFound),
       { c with evictList := eraseItem it.key c.evictList,
                store := eraseKV it.key c.store,
                missCount := c.missCount + 1 },
       if c.hasEvictedFunc then [Event.evicted it.key it.value] else []) := by
  simp only [LRUCache.get, LRUCache.removeElement, hl, hexp, if_true, Bool.false_eq_true,
    if_false]

theorem LRUCache.Get_miss {c : LRUCache} {k : Nat}
    (hld : c.hasLoader = false) (hl : lookupKV k c.store = none) (now : Nat) :
    c.Get now k =
      ((none, some GErr.keyNotFound), { c with missCount := c.missCount + 1 }, []) := by
  unfold LRUCache.Get
  rw [LRUCache.get_miss hl now]
  have hcond : ¬ (c.hasLoader = true) := by simp [hld]
  simp [LRUCache.getWithLoader, hcond]

theorem LRUCache.Get_hit {c : LRUCache} {now k : Nat} {it : LruItem}
    (hl : lookupKV k c.store = some it) (hexp : it.isExpired now = false)
    (hdes : c.deserializeFunc = none) :
    c.Get now k =
      ((some it.value, none),
       { c with evictList := moveToFront k c.evictList, hitCount := c.hitCount + 1 }, []) := by
  unfold LRUCache.Get
  rw [LRUCache.get_hit hl hexp hdes]
  simp

theorem LRUCache.Get_expired {c : LRUCache} {now k : Nat} {it : LruItem}
    (hld : c.hasLoader = false)
    (hl : lookupKV k c.store = some it) (hexp : it.isExpired now = true) :
    c.Get now k =
      ((none, some GErr.keyNotFound),
       { c with evictList := eraseItem it.key c.evictList,
                store := eraseKV it.key c.store,
                missCount := c.missCount + 1 },
       if c.hasEvictedFunc then [Event.evicted it.key it.value] else []) := by
  unfold LRUCache.Get
  rw [LRUCache.get_expired hl hexp]
  have hcond : ¬ (c.hasLoader = true) := by simp [hld]
  simp [LRUCache.getWithLoader, hcond]

/-! ## Claim C6 -/

/-- C6: Serialization-failure atomicity.  In either variant, if the
configured serialize hook returns an error during `Set` or `SetWithExpire`,
the operation returns exactly that error, the cache state is unchanged, and
no hook event (added or evicted) fires. -/
theorem C6_serialize_failure_atomic :
    (∀ (c : SimpleCache) (now k v v0 : Nat) (f : Nat → Nat → Nat × Option GErr) (e : GErr),
      c.serializeFunc = some f → f k v = (v0, some e) →
      c.Set now k v = (some e, c, []) ∧
      ∀ d, c.SetWithExpire now k v d = (some e, c, [])) ∧
    (∀ (c : LRUCache) (now k v v0 : Nat) (f : Nat → Nat → Nat × Option GErr) (e : GErr),
      c.serializeFunc = some f → f k v = (v0, some e) →
      c.Set now k v = (some e, c, []) ∧
      ∀ d, c.SetWithExpire now k v d = (some e, c, [])) := by
  constructor
  · intro c now k v v0 f e hf he
    have hstep : serializeStep c.serializeFunc k v = (v0, some e) := by
      rw [hf]; exact he
    have hset : c.set now k v = (some e, c, []) := by
      unfold SimpleCache.set
      rw [hstep]
    refine ⟨hset, fun d => ?_⟩
    unfold SimpleCache.SetWithExpire
    rw [hset]
  · intro c now k v v0 f e hf he
    have hstep : serializeStep c.serializeFunc k v = (v0, some e) := by
      rw [hf]; exact he
    have hset : c.set now k v = (some e, c, []) := by
      unfold LRUCache.set
      rw [hstep]
    refine ⟨hset, fun d => ?_⟩
    unfold LRUCache.SetWithExpire
    rw [hset]

def serFailFn : Nat → Nat → Nat × Option GErr := fun _ _ => (0, some (GErr.hookErr 7))

def wSimpleSer : SimpleCache := { simpleNew 2 with serializeFunc := some serFailFn }

def wLruSer : LRUCache := { lruNew 2 with serializeFunc := some serFailFn }

/-- Witness for C6 at a concrete cache and hook. -/
theorem C6_witness :
    wSimpleSer.Set 0 1 5 = (some (GErr.hookErr 7), wSimpleSer, []) ∧
    wLruSer.Set 0 1 5 = (some (GErr.hookErr 7), wLruSer, []) :=
  ⟨(C6_serialize_failure_atomic.1 wSimpleSer 0 1 5 0 serFailFn (GErr.hookErr 7) rfl rfl).1,
   (C6_serialize_failure_atomic.2 wLruSer 0 1 5 0 serFailFn (GErr.hookErr 7) rfl rfl).1⟩

/-! ## Claim C9 -/

/-- C9: Round-trip.  In either variant with no serialize/deserialize hooks,
no default TTL, no expiration on any stored entry, and no capacity
pressure, `Set(k, v)` immediately followed by `Get(k)` returns `v` with no
error. -/
theorem C9_set_get_roundtrip :
    (∀ (c : SimpleCache) (now k v : Nat),
      c.serializeFunc = none → c.deserializeFunc = none → c.expiration = none →
      (∀ p ∈ c.store, p.2.expiration = none) →
      (c.size = 0 ∨ c.Len < c.size) →
      (((c.Set now k v).2.1).Get now k).1 = (some v, none)) ∧
    (∀ (c : LRUCache) (now k v : Nat),
      c.serializeFunc = none → c.deserializeFunc = none → c.expiration = none →
      (∀ p ∈ c.store, p.2.expiration = none) →
      c.evictList.length < c.capacity →
      (((c.Set now k v).2.1).Get now k).1 = (some v, none)) := by
  constructor
  · intro c now k v hser hdes hexp hitems hcap
    unfold SimpleCache.Set
    cases hl : lookupKV k c.store with
    | some it0 =>
        have hst : (c.set now k v).2.1 =
            { c with store := updKV k (fun it => { it with value := v }) c.store } := by
          rw [SimpleCache.set_existing_simple hser hexp hl]
        rw [hst]
        have hl' : lookupKV k (updKV k (fun it => { it with value := v }) c.store)
            = some { it0 with value := v } := by
          rw [lookupKV_updKV_self, hl]; rfl
        have hexp0 : it0.expiration = none := hitems _ (lookupKV_mem hl)
        have hne : ({ it0 with value := v } : SimpleItem).isExpired now = false := by
          simp [SimpleItem.isExpired, hexp0]
        rw [SimpleCache.Get_hit_simple
          (c := { c with store := updKV k (fun it => { it with value := v }) c.store })
          hl' hne hdes]
    | none =>
        have hcond : ¬ (c.size ≤ c.store.length ∧ 0 < c.size) := by
          rcases hcap with h0 | hlt
          · rintro ⟨_, hpos⟩; omega
          · rintro ⟨hle, _⟩
            unfold SimpleCache.Len at hlt; omega
        have hst : (c.set now k v).2.1 =
            { c with store := (k, (⟨v, none⟩ : SimpleItem)) :: c.store } := by
          rw [SimpleCache.set_new_noevict_simple hser hexp hl hcond]
        rw [hst]
        have hl' : lookupKV k ((k, (⟨v, none⟩ : SimpleItem)) :: c.store)
            = some (⟨v, none⟩ : SimpleItem) := by
          simp [lookupKV]
        rw [SimpleCache.Get_hit_simple
          (c := { c with store := (k, (⟨v, none⟩ : SimpleItem)) :: c.store })
          hl' (by simp [SimpleItem.isExpired]) hdes]
  · intro c now k v hser hdes hexp hitems hcap
    unfold LRUCache.Set
    cases hl : lookupKV k c.store with
    | some it0 =>
        have hst : (c.set now k v).2.1 =
            { c with
                evictList := updItem k (fun it => { it with value := v }) (moveToFront k c.evictList),
                store := updKV k (fun it => { it with value := v }) c.store } := by
          rw [LRUCache.set_existing hser hexp hl]
        rw [hst]
        have hl' : lookupKV k (updKV k (fun it => { it with value := v }) c.store)
            = some { it0 with value := v } := by
          rw [lookupKV_updKV_self, hl]; rfl
        have hexp0 : it0.expiration = none := hitems _ (lookupKV_mem hl)
        have hne : ({ it0 with value := v } : LruItem).isExpired now = false := by
          simp [LruItem.isExpired, hexp0]
        rw [LRUCache.Get_hit
          (c := { c with
              evictList := updItem k (fun it => { it with value := v }) (moveToFront k c.evictList),
              store := updKV k (fun it => { it with value := v }) c.store })
          hl' hne hdes]
    | none =>
        have hcond : ¬ c.capacity ≤ c.evictList.length := by omega
        have hst : (c.set now k v).2.1 =
            { c with evictList := (⟨k, v, none⟩ : LruItem) :: c.evictList,
                     store := (k, (⟨k, v, none⟩ : LruItem)) :: c.store } := by
          rw [LRUCache.set_new_noevict hser hexp hl hcond]
        rw [hst]
        have hl' : lookupKV k ((k, (⟨k, v, none⟩ : LruItem)) :: c.store)
            = some (⟨k, v, none⟩ : LruItem) := by
          simp [lookupKV]
        rw [LRUCache.Get_hit
          (c := { c with evictList := (⟨k, v, none⟩ : LruItem) :: c.evictList,
                         store := (k, (⟨k, v, none⟩ : LruItem)) :: c.store })
          hl' (by simp [LruItem.isExpired]) hdes]

/-- Witness for C9 on fresh caches. -/
theorem C9_witness :
    ((((simpleNew 3).Set 0 1 42).2.1).Get 0 1).1 = (some 42, none) ∧
    ((((lruNew 3).Set 0 1 42).2.1).Get 0 1).1 = (some 42, none) :=
  ⟨C9_set_get_roundtrip.1 (simpleNew 3) 0 1 42 rfl rfl rfl (by simp [simpleNew])
      (Or.inr (by decide)),
   C9_set_get_roundtrip.2 (lruNew 3) 0 1 42 rfl rfl rfl (by simp [lruNew]) (by decide)⟩

/-! ## Claim C10 -/

/-- C10: `SimpleCache.GetIFPresent` discards non-not-found errors: for a
present, non-expired key whose deserialize hook errors, it returns the
hook's value with a `nil` error, while `LRUCache.GetIFPresent` propagates
the error. -/
theorem C10_simple_getifpresent_discards_errors
    (cs : SimpleCache) (cl : LRUCache) (now k : Nat) (f : Nat → Nat → GoRes)
    (its : SimpleItem) (itl : LruItem) (v0 : Option Nat) (e : GErr)
    (hds : cs.deserializeFunc = some f) (hdl : cl.deserializeFunc = some f)
    (hls : lookupKV k cs.store = some its) (hll : lookupKV k cl.store = some itl)
    (hes : its.isExpired now = false) (hel : itl.isExpired now = false)
    (hfs : f k its.value = (v0, some e)) (hfl : f k itl.value = (v0, some e))
    (hne : e ≠ GErr.keyNotFound) :
    (cs.GetIFPresent now k).1 = (v0, none) ∧
    (cl.GetIFPresent now k).1 = (v0, some e) := by
  constructor
  · unfold SimpleCache.GetIFPresent
    simp only [SimpleCache.get, hls, hes, Bool.false_eq_true, if_false, hds, hfs]
    simp [hne]
  · unfold LRUCache.GetIFPresent
    simp only [LRUCache.get, hll, hel, Bool.false_eq_true, if_false, hdl, hfl]
    simp [hne]

def deserErrFn : Nat → Nat → GoRes := fun _ _ => (some 9, some (GErr.hookErr 3))

def wSimpleDeser : SimpleCache :=
  { simpleNew 0 with store := [(1, ⟨5, none⟩)], deserializeFunc := some deserErrFn }

def lruDeserItem : LruItem := ⟨1, 5, none⟩

def wLruDeser : LRUCache :=
  { lruNew 4 with
    store := [(1, lruDeserItem)]
    evictList := [lruDeserItem]
    deserializeFunc := some deserErrFn }

/-- Witness for C10 at a concrete pair of caches. -/
theorem C10_witness :
    (wSimpleDeser.GetIFPresent 0 1).1 = (some 9, none) ∧
    (wLruDeser.GetIFPresent 0 1).1 = (some 9, some (GErr.hookErr 3)) :=
  C10_simple_getifpresent_discards_errors wSimpleDeser wLruDeser 0 1 deserErrFn
    ⟨5, none⟩ ⟨1, 5, none⟩ (some 9) (GErr.hookErr 3)
    rfl rfl rfl rfl rfl rfl rfl rfl (by decide)

/-! ## State-preservation helpers for the public Get -/

theorem SimpleCache.get_hasLoader_simple (c : SimpleCache) (now k : Nat) (onLoad : Bool) :
    (c.get now k onLoad).2.1.hasLoader = c.hasLoader := by
  unfold SimpleCache.get SimpleCache.remove
  cases hl : lookupKV k c.store with
  | none => cases onLoad <;> rfl
  | some it =>
      by_cases he : it.isExpired now
      · simp only [he, if_pos]
      · simp only [he, Bool.false_eq_true, if_false]
        cases c.deserializeFunc <;> cases onLoad <;> rfl

theorem SimpleCache.Get_state_simple {c : SimpleCache} (hld : c.hasLoader = false)
    (now k : Nat) : (c.Get now k).2.1 = (c.get now k false).2.1 := by
  unfold SimpleCache.Get
  cases hres : c.get now k false with
  | mk r rest =>
      obtain ⟨c1, ev⟩ := rest
      by_cases hnf : r.2 = some GErr.keyNotFound
      · have hld1 : c1.hasLoader = false := by
          have := SimpleCache.get_hasLoader_simple c now k false
          rw [hres] at this
          rw [show c1.hasLoader = c.hasLoader from this, hld]
        simp only [hnf, if_pos, SimpleCache.getWithLoader, hld1, Bool.false_eq_true, if_false]
      · simp only [hnf, if_neg, if_false]

theorem LRUCache.get_hasLoader (c : LRUCache) (now k : Nat) (onLoad : Bool) :
    (c.get now k onLoad).2.1.hasLoader = c.hasLoader := by
  unfold LRUCache.get LRUCache.removeElement
  cases hl : lookupKV k c.store with
  | none => cases onLoad <;> rfl
  | some it =>
      by_cases he : it.isExpired now
      · simp only [he, if_pos]
        cases onLoad <;> rfl
      · simp only [he, Bool.false_eq_true, if_false]
        cases c.deserializeFunc <;> cases onLoad <;> rfl

theorem LRUCache.Get_state {c : LRUCache} (hld : c.hasLoader = false)
    (now k : Nat) : (c.Get now k).2.1 = (c.get now k false).2.1 := by
  unfold LRUCache.Get
  cases hres : c.get now k false with
  | mk r rest =>
      obtain ⟨c1, ev⟩ := rest
      by_cases hnf : r.2 = some GErr.keyNotFound
      · have hld1 : c1.hasLoader = false := by
          have := c.get_hasLoader now k false
          rw [hres] at this
          rw [show c1.hasLoader = c.hasLoader from this, hld]
        simp only [hnf, if_pos, LRUCache.getWithLoader, hld1, Bool.false_eq_true, if_false]
      · simp only [hnf, if_neg, if_false]

/-- `set` on a cache whose store is empty (no serialize hook, no TTL). -/
theorem SimpleCache.set_on_empty_simple (c : SimpleCache) (hser : c.serializeFunc = none)
    (hexp : c.expiration = none) (hst : c.store = []) (now k v : Nat) :
    c.set now k v =
      (none, { c with store := [(k, (⟨v, none⟩ : SimpleItem))] },
        if c.hasAddedFunc then [Event.added k v] else []) := by
  have hcond : ¬ (c.size ≤ c.store.length ∧ 0 < c.size) := by
    rw [hst]
    simp only [List.length_nil]
    omega
  have hl : lookupKV k c.store = none := by rw [hst]; rfl
  rw [SimpleCache.set_new_noevict_simple hser hexp hl hcond, hst]

/-- `set` on a cache whose store is empty, with a default TTL configured. -/
theorem SimpleCache.set_on_empty_ttl_simple (c : SimpleCache) {d : Nat}
    (hser : c.serializeFunc = none) (hexp : c.expiration = some d)
    (hst : c.store = []) (now k v : Nat) :
    c.set now k v =
      (none, { c with store := [(k, (⟨v, some (now + d)⟩ : SimpleItem))] },
        if c.hasAddedFunc then [Event.added k v] else []) := by
  have hcond : ¬ (c.size ≤ c.store.length ∧ 0 < c.size) := by
    rw [hst]
    simp only [List.length_nil]
    omega
  have hl : lookupKV k c.store = none := by rw [hst]; rfl
  simp only [SimpleCache.set, hser, serializeStep, hl, hexp, hcond,
    SimpleCache.setExpStep, if_neg, if_false, List.nil_append]
  rw [hst]
  simp [updKV]

/-- `set` on an LRU cache whose structures are empty (no serialize hook, no
TTL); `evict` on the empty list is the identity, so the capacity check is
immaterial. -/
theorem LRUCache.set_on_empty (c : LRUCache) (hser : c.serializeFunc = none)
    (hexp : c.expiration = none) (hst : c.store = []) (hev : c.evictList = [])
    (now k v : Nat) :
    c.set now k v =
      (none, { c with evictList := [(⟨k, v, none⟩ : LruItem)],
                      store := [(k, (⟨k, v, none⟩ : LruItem))] },
        if c.hasAddedFunc then [Event.added k v] else []) := by
  have hl : lookupKV k c.store = none := by rw [hst]; rfl
  by_cases hcap : c.capacity ≤ c.evictList.length
  · have hlast : c.evictList.getLast? = none := by rw [hev]; rfl
    have hev1 : c.evict 1 = (c, []) := by
      unfold LRUCache.evict
      rw [hlast]
    simp only [LRUCache.set, hser, serializeStep, hl, hexp, hcap,
      LRUCache.setExpStep, if_pos, hev1, List.nil_append]
    rw [hst, hev]
  · rw [LRUCache.set_new_noevict hser hexp hl hcap, hst, hev]

/-- `set` on an empty LRU cache with a default TTL configured. -/
theorem LRUCache.set_on_empty_ttl (c : LRUCache) {d : Nat}
    (hser : c.serializeFunc = none) (hexp : c.expiration = some d)
    (hst : c.store = []) (hev : c.evictList = []) (now k v : Nat) :
    c.set now k v =
      (none, { c with evictList := [(⟨k, v, some (now + d)⟩ : LruItem)],
                      store := [(k, (⟨k, v, some (now + d)⟩ : LruItem))] },
        if c.hasAddedFunc then [Event.added k v] else []) := by
  have hl : lookupKV k c.store = none := by rw [hst]; rfl
  by_cases hcap : c.capacity ≤ c.evictList.length
  · have hlast : c.evictList.getLast? = none := by rw [hev]; rfl
    have hev1 : c.evict 1 = (c, []) := by
      unfold LRUCache.evict
      rw [hlast]
    simp only [LRUCache.set, hser, serializeStep, hl, hexp, hcap,
      LRUCache.setExpStep, if_pos, hev1, List.nil_append]
    rw [hst, hev]
    simp [updKV, updItem]
  · simp only [LRUCache.set, hser, serializeStep, hl, hexp, hcap,
      LRUCache.setExpStep, if_neg, if_false, List.nil_append]
    rw [hst, hev]
    simp [updKV, updItem]

/-! ## Claim C3 -/

/-- C3 counterexample: a key stored at clock 0 with absolute expiration
instant `t = 50` is still returned, with no error, by a `Get` performed at
clock time exactly `t` — in both variants — whereas the claim says a read
at or after `t` reports not-found. -/
theorem C3_counterexample :
    ((((simpleNew 0).SetWithExpire 0 1 42 50).2.1).Get 50 1).1 = (some 42, none) ∧
    ((((lruNew 4).SetWithExpire 0 1 42 50).2.1).Get 50 1).1 = (some 42, none) := by
  constructor <;> rfl

/-- C3 amended: expiration is exclusive at the boundary.  A key stored with
absolute expiration instant `t` (via `SetWithExpire` or the default TTL,
both of which store `t = now0 + d`) is returned by any `Get` at clock
`now ≤ t`, and any `Get` at `now > t` reports not-found and lazily removes
the entry from the index. -/
theorem C3_expiration_boundary_amended :
    (∀ (c : SimpleCache) (k now t : Nat) (it : SimpleItem),
      c.deserializeFunc = none → c.hasLoader = false →
      (c.store.map Prod.fst).Nodup →
      lookupKV k c.store = some it → it.expiration = some t →
      (now ≤ t → (c.Get now k).1 = (some it.value, none)) ∧
      (t < now → (c.Get now k).1 = (none, some GErr.keyNotFound) ∧
        lookupKV k ((c.Get now k).2.1).store = none)) ∧
    (∀ (c : LRUCache) (k now t : Nat) (it : LruItem),
      c.deserializeFunc = none → c.hasLoader = false →
      (c.store.map Prod.fst).Nodup →
      lookupKV k c.store = some it → it.expiration = some t → it.key = k →
      (now ≤ t → (c.Get now k).1 = (some it.value, none)) ∧
      (t < now → (c.Get now k).1 = (none, some GErr.keyNotFound) ∧
        lookupKV k ((c.Get now k).2.1).store = none)) ∧
    (∀ sz now0 k v d, lookupKV k ((((simpleNew sz).SetWithExpire now0 k v d).2.1).store)
        = some ⟨v, some (now0 + d)⟩) ∧
    (∀ cap now0 k v d, lookupKV k ((((lruNew cap).SetWithExpire now0 k v d).2.1).store)
        = some ⟨k, v, some (now0 + d)⟩) ∧
    (∀ sz now0 k v d,
        lookupKV k ((({ simpleNew sz with expiration := some d }).Set now0 k v).2.1.store)
        = some ⟨v, some (now0 + d)⟩) ∧
    (∀ cap now0 k v d,
        lookupKV k ((({ lruNew cap with expiration := some d }).Set now0 k v).2.1.store)
        = some ⟨k, v, some (now0 + d)⟩) := by
  refine ⟨?_, ?_, ?_, ?_, ?_, ?_⟩
  · intro c k now t it hdes hld hnd hl hexp
    constructor
    · intro hle
      have hne : it.isExpired now = false := by
        unfold SimpleItem.isExpired
        rw [hexp]
        exact decide_eq_false (Nat.not_lt.2 hle)
      rw [SimpleCache.Get_hit_simple hl hne hdes]
    · intro hlt
      have he : it.isExpired now = true := by
        unfold SimpleItem.isExpired
        rw [hexp]
        exact decide_eq_true hlt
      rw [SimpleCache.Get_expired_simple hld hl he]
      exact ⟨rfl, lookupKV_eraseKV_self hnd⟩
  · intro c k now t it hdes hld hnd hl hexp hkey
    constructor
    · intro hle
      have hne : it.isExpired now = false := by
        unfold LruItem.isExpired
        rw [hexp]
        exact decide_eq_false (Nat.not_lt.2 hle)
      rw [LRUCache.Get_hit hl hne hdes]
    · intro hlt
      have he : it.isExpired now = true := by
        unfold LruItem.isExpired
        rw [hexp]
        exact decide_eq_true hlt
      rw [LRUCache.Get_expired hld hl he]
      refine ⟨rfl, ?_⟩
      rw [hkey]
      exact lookupKV_eraseKV_self hnd
  · intro sz now0 k v d
    unfold SimpleCache.SetWithExpire
    rw [SimpleCache.set_on_empty_simple (simpleNew sz) rfl rfl rfl now0 k v]
    simp [updKV, lookupKV]
  · intro cap now0 k v d
    unfold LRUCache.SetWithExpire
    rw [LRUCache.set_on_empty (lruNew cap) rfl rfl rfl rfl now0 k v]
    simp [updKV, lookupKV]
  · intro sz now0 k v d
    unfold SimpleCache.Set
    rw [SimpleCache.set_on_empty_ttl_simple ({ simpleNew sz with expiration := some d })
      rfl rfl rfl now0 k v]
    simp [lookupKV]
  · intro cap now0 k v d
    unfold LRUCache.Set
    rw [LRUCache.set_on_empty_ttl ({ lruNew cap with expiration := some d })
      rfl rfl rfl rfl now0 k v]
    simp [lookupKV]

def wSimpleExp : SimpleCache := { simpleNew 0 with store := [(1, ⟨5, some 10⟩)] }

def wLruExpItem : LruItem := ⟨1, 5, some 10⟩

def wLruExp : LRUCache :=
  { lruNew 3 with
    store := [(1, wLruExpItem)]
    evictList := [wLruExpItem] }

/-- Witness for C3's amended theorem at a concrete cache and clock. -/
theorem C3_witness :
    (wSimpleExp.Get 10 1).1 = (some 5, none) ∧
    ((wSimpleExp.Get 11 1).1 = (none, some GErr.keyNotFound) ∧
      lookupKV 1 ((wSimpleExp.Get 11 1).2.1).store = none) ∧
    (wLruExp.Get 10 1).1 = (some 5, none) ∧
    lookupKV 1 ((((simpleNew 2).SetWithExpire 3 1 5 7).2.1).store) = some ⟨5, some 10⟩ :=
  ⟨(C3_expiration_boundary_amended.1 wSimpleExp 1 10 10 ⟨5, some 10⟩
      rfl rfl (by decide) rfl rfl).1 (by decide),
   (C3_expiration_boundary_amended.1 wSimpleExp 1 11 10 ⟨5, some 10⟩
      rfl rfl (by decide) rfl rfl).2 (by decide),
   (C3_expiration_boundary_amended.2.1 wLruExp 1 10 10 wLruExpItem
      rfl rfl (by decide) rfl rfl rfl).1 (by decide),
   C3_expiration_boundary_amended.2.2.1 2 3 1 5 7⟩

/-! ## Claim C7 -/

/-- C7 counterexample: in the Simple variant, a `Get` that finds an expired
entry reports not-found (and removes the entry) but does not increment the
miss counter, whereas the claim says every not-found `Get` increments it
exactly once. -/
theorem C7_counterexample :
    ((((simpleNew 0).SetWithExpire 0 1 42 5).2.1).Get 10 1).1
        = (none, some GErr.keyNotFound) ∧
    ((((simpleNew 0).SetWithExpire 0 1 42 5).2.1).Get 10 1).2.1.missCount = 0 := by
  constructor <;> rfl

/-- C7 amended: in the LRU variant every external `Get` that reports
not-found (absent or expired-and-lazily-removed) increments the miss
counter exactly once and every hit increments the hit counter exactly
once; in the Simple variant this holds for the absent case and for hits,
but a `Get` that finds an expired entry reports not-found without touching
either counter. -/
theorem C7_hit_miss_counting_amended :
    (∀ (c : LRUCache) (now k : Nat), c.hasLoader = false →
      ((lookupKV k c.store = none →
          (c.Get now k).2.1.missCount = c.missCount + 1 ∧
          (c.Get now k).2.1.hitCount = c.hitCount) ∧
       (∀ it, lookupKV k c.store = some it → it.isExpired now = true →
          (c.Get now k).2.1.missCount = c.missCount + 1 ∧
          (c.Get now k).2.1.hitCount = c.hitCount) ∧
       (∀ it, lookupKV k c.store = some it → it.isExpired now = false →
          (c.Get now k).2.1.hitCount = c.hitCount + 1 ∧
          (c.Get now k).2.1.missCount = c.missCount))) ∧
    (∀ (c : SimpleCache) (now k : Nat), c.hasLoader = false →
      ((lookupKV k c.store = none →
          (c.Get now k).2.1.missCount = c.missCount + 1 ∧
          (c.Get now k).2.1.hitCount = c.hitCount) ∧
       (∀ it, lookupKV k c.store = some it → it.isExpired now = true →
          (c.Get now k).1 = (none, some GErr.keyNotFound) ∧
          (c.Get now k).2.1.missCount = c.missCount ∧
          (c.Get now k).2.1.hitCount = c.hitCount) ∧
       (∀ it, lookupKV k c.store = some it → it.isExpired now = false →
          (c.Get now k).2.1.hitCount = c.hitCount + 1 ∧
          (c.Get now k).2.1.missCount = c.missCount))) := by
  constructor
  · intro c now k hld
    refine ⟨?_, ?_, ?_⟩
    · intro hl
      rw [LRUCache.Get_state hld, LRUCache.get_miss hl now]
      exact ⟨rfl, rfl⟩
    · intro it hl he
      rw [LRUCache.Get_state hld, LRUCache.get_expired hl he]
      exact ⟨rfl, rfl⟩
    · intro it hl he
      have hst : (c.get now k false).2.1 =
          { c with evictList := moveToFront k c.evictList,
                   hitCount := c.hitCount + 1 } := by
        unfold LRUCache.get
        rw [hl]
        simp only [he, Bool.false_eq_true, if_false]
        cases c.deserializeFunc <;> rfl
      rw [LRUCache.Get_state hld, hst]
      exact ⟨rfl, rfl⟩
  · intro c now k hld
    refine ⟨?_, ?_, ?_⟩
    · intro hl
      rw [SimpleCache.Get_state_simple hld, SimpleCache.get_miss_simple hl now]
      exact ⟨rfl, rfl⟩
    · intro it hl he
      rw [SimpleCache.Get_expired_simple hld hl he]
      exact ⟨rfl, rfl, rfl⟩
    · intro it hl he
      have hst : (c.get now k false).2.1 =
          { c with hitCount := c.hitCount + 1 } := by
        unfold SimpleCache.get
        rw [hl]
        simp only [he, Bool.false_eq_true, if_false]
        cases c.deserializeFunc <;> rfl
      rw [SimpleCache.Get_state_simple hld, hst]
      exact ⟨rfl, rfl⟩

/-- Witness for C7's amended theorem at concrete caches. -/
theorem C7_witness :
    ((wLruExp.Get 20 1).2.1.missCount = wLruExp.missCount + 1 ∧
      (wLruExp.Get 20 1).2.1.hitCount = wLruExp.hitCount) ∧
    ((wSimpleExp.Get 20 1).1 = (none, some GErr.keyNotFound) ∧
      (wSimpleExp.Get 20 1).2.1.missCount = wSimpleExp.missCount ∧
      (wSimpleExp.Get 20 1).2.1.hitCount = wSimpleExp.hitCount) ∧
    ((wSimpleExp.Get 2 1).2.1.hitCount = wSimpleExp.hitCount + 1 ∧
      (wSimpleExp.Get 2 1).2.1.missCount = wSimpleExp.missCount) :=
  ⟨(C7_hit_miss_counting_amended.1 wLruExp 20 1 rfl).2.1 wLruExpItem rfl (by decide),
   (C7_hit_miss_counting_amended.2 wSimpleExp 20 1 rfl).2.1 ⟨5, some 10⟩ rfl (by decide),
   (C7_hit_miss_counting_amended.2 wSimpleExp 2 1 rfl).2.2 ⟨5, some 10⟩ rfl (by decide)⟩

/-! ## Claim C2 -/

theorem SimpleCache.remove_store (c : SimpleCache) (k : Nat) :
    (c.remove k).2.1.store = eraseKV k c.store := by
  unfold SimpleCache.remove
  cases hl : lookupKV k c.store with
  | some it => rfl
  | none => exact (eraseKV_of_not_mem (lookupKV_eq_none.1 hl)).symm

theorem SimpleCache.foldRemove_store :
    ∀ (V : List Nat) (c : SimpleCache) (ev : List Event),
    (V.foldl SimpleCache.removeStep (c, ev)).1.store =
      V.foldl (fun st k => eraseKV k st) c.store := by
  intro V
  induction V with
  | nil => intro c ev; rfl
  | cons k rest ih =>
      intro c ev
      simp only [List.foldl_cons]
      rw [show SimpleCache.removeStep (c, ev) k
          = ((c.remove k).2.1, ev ++ (c.remove k).2.2) from rfl]
      rw [ih, SimpleCache.remove_store]

/-- The scan loop collects the first `count - cur` evictable keys in
mapping-iteration order. -/
theorem SimpleCache.evictScan_eq (now : Nat) :
    ∀ (s : List (Nat × SimpleItem)) (count cur : Nat),
    SimpleCache.evictScan now count s cur =
      ((s.filter (fun p => p.2.evictable now)).take (count - cur)).map Prod.fst := by
  intro s
  induction s with
  | nil => intro count cur; simp [SimpleCache.evictScan]
  | cons p rest ih =>
      intro count cur
      obtain ⟨k, it⟩ := p
      by_cases hstop : count ≤ cur
      · have h0 : count - cur = 0 := by omega
        simp [SimpleCache.evictScan, hstop, h0]
      · by_cases hev : it.evictable now = true
        · have h1 : count - cur = (count - (cur + 1)) + 1 := by omega
          simp only [SimpleCache.evictScan, hstop, if_neg, if_false, hev, if_pos,
            List.filter_cons_of_pos, h1, List.take_succ_cons, List.map_cons]
          rw [ih]
        · have hev' : it.evictable now = false := by
            cases h : it.evictable now
            · rfl
            · exact absurd h hev
          simp only [SimpleCache.evictScan, hstop, if_neg, if_false, hev', Bool.false_eq_true]
          rw [ih, List.filter_cons_of_neg]
          simp [hev']

theorem eraseKV_eq_filter {α : Type} {s : List (Nat × α)}
    (hnd : (s.map Prod.fst).Nodup) (k : Nat) :
    eraseKV k s = s.filter (fun p => decide (¬ p.1 = k)) := by
  induction s with
  | nil => rfl
  | cons p rest ih =>
      obtain ⟨k', v'⟩ := p
      rw [List.map_cons] at hnd
      obtain ⟨hk', hnd2⟩ := List.nodup_cons.mp hnd
      by_cases h : k' = k
      · subst h
        have e1 : eraseKV k' ((k', v') :: rest) = rest := by simp [eraseKV]
        rw [e1, List.filter_cons_of_neg (by simp)]
        symm
        apply List.filter_eq_self.2
        intro p hp
        have hne : ¬ p.1 = k' := fun hh => hk' (hh ▸ List.mem_map.2 ⟨p, hp, rfl⟩)
        simp [hne]
      · simp [eraseKV, h, ih hnd2]

theorem foldl_eraseKV_eq_filter {α : Type} :
    ∀ (V : List Nat) (s : List (Nat × α)), (s.map Prod.fst).Nodup →
    V.foldl (fun st k => eraseKV k st) s = s.filter (fun p => decide (p.1 ∉ V)) := by
  intro V
  induction V with
  | nil => intro s hnd; simp
  | cons k rest ih =>
      intro s hnd
      simp only [List.foldl_cons]
      have hnd2 : ((eraseKV k s).map Prod.fst).Nodup := by
        rw [map_fst_eraseKV]
        exact hnd.erase k
      rw [ih _ hnd2, eraseKV_eq_filter hnd, List.filter_filter]
      apply List.filter_congr
      intro p hp
      simp only [List.mem_cons, decide_not]
      by_cases h1 : p.1 = k <;> by_cases h2 : p.1 ∈ rest <;> simp [h1, h2]

theorem lookupKV_unique {α : Type} {s : List (Nat × α)} {k : Nat} {a b : α}
    (hnd : (s.map Prod.fst).Nodup) (ha : (k, a) ∈ s) (hb : (k, b) ∈ s) : a = b := by
  have h1 := mem_lookupKV hnd ha
  have h2 := mem_lookupKV hnd hb
  rw [h1] at h2
  exact (Option.some.injEq _ _ ▸ h2)

/-- C2 counterexample: on a one-entry mapping whose entry has a
not-yet-passed expiration, `Evict(1)` removes nothing, whereas the claim
says it must remove one (non-expired) entry since the mapping is not
empty. -/
theorem C2_counterexample :
    (({ simpleNew 0 with store := [(0, ⟨5, some 100⟩)] } : SimpleCache).evict 0 1).1.store
      = [(0, ⟨5, some 100⟩)] ∧
    ({ simpleNew 0 with store := [(0, ⟨5, some 100⟩)] } : SimpleCache).store.length = 1 := by
  constructor <;> rfl

/-- C2 amended: `Evict(n)` removes exactly the first `min(n, number of
eligible entries)` entries in mapping-iteration order, where an entry is
eligible iff its expiration is absent or has already passed
(`expiration == nil || now.After(expiration)`); entries with a
not-yet-passed expiration are never removed, and an entry with no
expiration is preferred over (removed instead of) a non-expired one. -/
theorem C2_unordered_eviction_amended (c : SimpleCache) (now n : Nat)
    (hnd : (c.store.map Prod.fst).Nodup) :
    (c.evict now n).1.store =
      c.store.filter (fun p =>
        decide (p.1 ∉ ((c.store.filter (fun q => q.2.evictable now)).take n).map Prod.fst)) ∧
    (∀ p ∈ c.store, p.2.evictable now = false → p ∈ (c.evict now n).1.store) ∧
    (((c.store.filter (fun q => q.2.evictable now)).take n).map Prod.fst).length
      = min n (c.store.filter (fun q => q.2.evictable now)).length := by
  have hstore : (c.evict now n).1.store =
      c.store.filter (fun p =>
        decide (p.1 ∉ ((c.store.filter (fun q => q.2.evictable now)).take n).map Prod.fst)) := by
    unfold SimpleCache.evict
    rw [SimpleCache.foldRemove_store, foldl_eraseKV_eq_filter _ _ hnd]
    apply List.filter_congr
    intro p hp
    rw [SimpleCache.evictScan_eq]
    simp [List.mem_reverse]
  refine ⟨hstore, ?_, ?_⟩
  · intro p hp hne
    rw [hstore]
    rw [List.mem_filter]
    refine ⟨hp, ?_⟩
    simp only [decide_eq_true_eq]
    intro hmem
    rcases List.mem_map.1 hmem with ⟨q, hq, hqk⟩
    have hq2 : q ∈ c.store.filter (fun q => q.2.evictable now) := List.mem_of_mem_take hq
    rw [List.mem_filter] at hq2
    have : q.2 = p.2 := by
      apply lookupKV_unique hnd (k := p.1)
      · rw [← hqk]
        exact (by simpa using hq2.1 : q ∈ c.store)
      · simpa using hp
    rw [this] at hq2
    rw [hq2.2] at hne
    exact absurd hne (by simp)
  · rw [List.length_map, List.length_take]

def wC2 : SimpleCache := { simpleNew 0 with store := [(0, ⟨5, some 100⟩), (1, ⟨6, none⟩)] }

/-- Witness for C2's amended theorem: a mapping with one future-dated entry
and one no-expiration entry; `Evict(1)` removes the no-expiration entry and
keeps the future-dated one. -/
theorem C2_witness :
    (wC2.evict 0 1).1.store =
      wC2.store.filter (fun p =>
        decide (p.1 ∉ ((wC2.store.filter (fun q => q.2.evictable 0)).take 1).map Prod.fst)) :=
  (C2_unordered_eviction_amended wC2 0 1 (by decide)).1

/-! ## Claim C1 -/

theorem SimpleCache.evictScan_stop (now count : Nat) (s : List (Nat × SimpleItem))
    (cur : Nat) (h : count ≤ cur) : SimpleCache.evictScan now count s cur = [] := by
  cases s with
  | nil => rfl
  | cons p rest =>
      obtain ⟨k, it⟩ := p
      simp [SimpleCache.evictScan, h]

theorem SimpleCache.evict_one_of_head_evictable {c : SimpleCache} {now k0 : Nat}
    {it0 : SimpleItem} {rest : List (Nat × SimpleItem)}
    (hst : c.store = (k0, it0) :: rest) (hev : it0.evictable now = true) :
    (c.evict now 1).1 = { c with store := rest } := by
  have hscan : SimpleCache.evictScan now 1 c.store 0 = [k0] := by
    rw [hst]
    unfold SimpleCache.evictScan
    rw [SimpleCache.evictScan_stop now 1 rest 1 (le_refl 1)]
    simp [hev]
  unfold SimpleCache.evict
  rw [hscan]
  show (SimpleCache.removeStep (c, []) k0).1 = { c with store := rest }
  show ((c.remove k0).2.1, [] ++ (c.remove k0).2.2).1 = { c with store := rest }
  have hl : lookupKV k0 c.store = some it0 := by rw [hst]; simp [lookupKV]
  unfold SimpleCache.remove
  rw [hl]
  show ({ c with store := eraseKV k0 c.store } : SimpleCache) = { c with store := rest }
  rw [hst]
  simp [eraseKV]

theorem updKV_forall {α : Type} {P : α → Prop} {s : List (Nat × α)} (k : Nat)
    {f : α → α} (hP : ∀ p ∈ s, P p.2) (hf : ∀ a, P a → P (f a)) :
    ∀ p ∈ updKV k f s, P p.2 := by
  induction s with
  | nil => intro p hp; simp [updKV] at hp
  | cons q rest ih =>
      obtain ⟨k', v'⟩ := q
      intro p hp
      have hPrest : ∀ p ∈ rest, P p.2 := fun p hp => hP p (List.mem_cons_of_mem _ hp)
      by_cases h : k' = k
      · simp only [updKV, h, if_pos, List.mem_cons] at hp
        rcases hp with hp | hp
        · rw [hp]
          exact hf _ (hP (k', v') (List.mem_cons_self _ _))
        · exact ih hPrest p hp
      · simp only [updKV, h, if_neg, if_false, List.mem_cons] at hp
        rcases hp with hp | hp
        · rw [hp]
          exact hP (k', v') (List.mem_cons_self _ _)
        · exact ih hPrest p hp

/-- One `set` preserves the exp-free-store invariant, the configuration, and
the capacity bound of the Simple variant (under a positive size). -/
theorem SimpleCache.set_len_le_simple {c : SimpleCache} (now k v : Nat)
    (hsz : 0 < c.size) (hexp : c.expiration = none)
    (hitems : ∀ p ∈ c.store, p.2.expiration = none) (hle : c.Len ≤ c.size) :
    (c.set now k v).2.1.Len ≤ c.size ∧
    (c.set now k v).2.1.size = c.size ∧
    (c.set now k v).2.1.expiration = none ∧
    (∀ p ∈ (c.set now k v).2.1.store, p.2.expiration = none) := by
  unfold SimpleCache.set
  cases hs : serializeStep c.serializeFunc k v with
  | mk v' e =>
      cases e with
      | some err => exact ⟨hle, rfl, hexp, hitems⟩
      | none =>
          simp only [hexp, SimpleCache.setExpStep]
          cases hl : lookupKV k c.store with
          | some it0 =>
              refine ⟨?_, rfl, rfl, ?_⟩
              · show (updKV k _ c.store).length ≤ c.size
                rw [length_updKV]
                exact hle
              · exact updKV_forall
                  (P := fun (it : SimpleItem) => it.expiration = none) k hitems
                  (fun a ha => ha)
          | none =>
              by_cases hc : c.size ≤ c.store.length ∧ 0 < c.size
              · simp only [hc, and_self, if_true]
                cases hstore : c.store with
                | nil =>
                    exfalso
                    rw [hstore] at hc
                    simp at hc
                    omega
                | cons p0 rest =>
                    obtain ⟨k0, it0⟩ := p0
                    have hexp0 : it0.expiration = none :=
                      hitems (k0, it0) (hstore ▸ List.mem_cons_self _ _)
                    have hev0 : it0.evictable now = true := by
                      unfold SimpleItem.evictable
                      rw [hexp0]
                    have hevict := SimpleCache.evict_one_of_head_evictable hstore hev0
                    rw [hevict]
                    refine ⟨?_, rfl, hexp, ?_⟩
                    · show ((k, (⟨v', none⟩ : SimpleItem)) :: rest).length ≤ c.size
                      have : c.store.length ≤ c.size := hle
                      rw [hstore] at this
                      simpa using this
                    · intro p hp
                      rcases List.mem_cons.1 hp with hp | hp
                      · rw [hp]
                      · exact hitems p (hstore ▸ List.mem_cons_of_mem _ hp)
              · simp only [hc, if_neg, if_false]
                refine ⟨?_, by simp, by simp [hexp], ?_⟩
                · show ((k, (⟨v', none⟩ : SimpleItem)) :: c.store).length ≤ c.size
                  have hlt : c.store.length < c.size := by
                    rcases Nat.lt_or_ge c.store.length c.size with h | h
                    · exact h
                    · exact absurd ⟨h, hsz⟩ hc
                  simpa using hlt
                · intro p hp
                  rcases List.mem_cons.1 hp with hp | hp
                  · rw [hp]
                  · exact hitems p hp

theorem LRUCache.evict_one_store {c : LRUCache} {itl : LruItem}
    (hlast : c.evictList.getLast? = some itl) :
    (c.evict 1).1.store = eraseKV itl.key c.store ∧
    (c.evict 1).1.capacity = c.capacity := by
  unfold LRUCache.evict
  rw [hlast]
  exact ⟨rfl, rfl⟩

/-- One `set` keeps `Len ≤ capacity` (and `Len = capacity` once warm) for
the LRU variant, for positive capacities. -/
theorem LRUCache.set_len_le {c : LRUCache} (h : lruInv c) (now k v : Nat)
    (hcap : 0 < c.capacity) (hle : c.Len ≤ c.capacity) :
    (c.set now k v).2.1.Len ≤ c.capacity ∧
    (c.Len = c.capacity → (c.set now k v).2.1.Len = c.capacity) ∧
    (c.set now k v).2.1.capacity = c.capacity := by
  unfold LRUCache.set
  cases hs : serializeStep c.serializeFunc k v with
  | mk v' e =>
      cases e with
      | some err => exact ⟨hle, fun hh => hh, rfl⟩
      | none =>
          simp only
          cases hl : lookupKV k c.store with
          | some it0 =>
              rw [LRUCache.setExpStep_Len]
              refine ⟨?_, ?_, ?_⟩
              · show (updKV k _ c.store).length ≤ c.capacity
                rw [length_updKV]
                exact hle
              · intro hwarm
                show (updKV k _ c.store).length = c.capacity
                rw [length_updKV]
                exact hwarm
              · rw [LRUCache.setExpStep_capacity]
          | none =>
              by_cases hc : c.capacity ≤ c.evictList.length
              · simp only [hc, if_pos]
                have hne : c.evictList ≠ [] := by
                  intro hnil
                  rw [hnil] at hc
                  simp at hc
                  omega
                obtain ⟨itl, hlast⟩ :=
                  Option.isSome_iff_exists.1 (List.getLast?_isSome.2 hne)
                have hkey : itl.key ∈ c.store.map Prod.fst := by
                  have hmem : itl ∈ c.evictList := getLast?_mem hlast
                  have : itl.key ∈ keysL c := List.mem_map.2 ⟨itl, hmem, rfl⟩
                  exact h.map_fst_perm.mem_iff.2 this
                have hev := LRUCache.evict_one_store hlast
                have hlen : c.store.length = c.evictList.length := h.length_eq
                rw [LRUCache.setExpStep_Len]
                refine ⟨?_, ?_, ?_⟩
                · show ((k, (⟨k, v', none⟩ : LruItem)) :: (c.evict 1).1.store).length ≤ c.capacity
                  rw [List.length_cons, hev.1]
                  have := length_eraseKV_of_mem hkey
                  have hstlen : c.capacity ≤ c.store.length := hlen ▸ hc
                  have hle2 : c.store.length ≤ c.capacity := hle
                  omega
                · intro hwarm
                  show ((k, (⟨k, v', none⟩ : LruItem)) :: (c.evict 1).1.store).length = c.capacity
                  rw [List.length_cons, hev.1]
                  have := length_eraseKV_of_mem hkey
                  have hstlen : c.store.length = c.capacity := hwarm
                  omega
                · rw [LRUCache.setExpStep_capacity]
                  exact hev.2
              · simp only [hc, if_neg, if_false]
                have hlen : c.store.length = c.evictList.length := h.length_eq
                rw [LRUCache.setExpStep_Len]
                refine ⟨?_, ?_, ?_⟩
                · show ((k, (⟨k, v', none⟩ : LruItem)) :: c.store).length ≤ c.capacity
                  rw [List.length_cons]
                  omega

                · intro hwarm
                  exfalso
                  have : c.store.length = c.capacity := hwarm
                  omega
                · rw [LRUCache.setExpStep_capacity]

def SimpleCache.applySets (c : SimpleCache) (now : Nat) :
    List (Nat × Nat) → SimpleCache
  | [] => c
  | (k, v) :: ops => ((c.set now k v).2.1).applySets now ops

def LRUCache.applySets (c : LRUCache) (now : Nat) :
    List (Nat × Nat) → LRUCache
  | [] => c
  | (k, v) :: ops => ((c.set now k v).2.1).applySets now ops

theorem SimpleCache.applySets_len_simple :
    ∀ (ops : List (Nat × Nat)) (c : SimpleCache) (now : Nat),
    0 < c.size → c.expiration = none → (∀ p ∈ c.store, p.2.expiration = none) →
    c.Len ≤ c.size → (c.applySets now ops).Len ≤ c.size := by
  intro ops
  induction ops with
  | nil => intro c now _ _ _ hle; exact hle
  | cons p rest ih =>
      intro c now hsz hexp hitems hle
      obtain ⟨k, v⟩ := p
      obtain ⟨h1, h2, h3, h4⟩ := SimpleCache.set_len_le_simple now k v hsz hexp hitems hle
      show (((c.set now k v).2.1).applySets now rest).Len ≤ c.size
      rw [← h2]
      exact ih _ now (h2 ▸ hsz) h3 h4 (h2 ▸ h1)

theorem LRUCache.applySets_len :
    ∀ (ops : List (Nat × Nat)) (c : LRUCache) (now : Nat),
    lruInv c → 0 < c.capacity → c.Len ≤ c.capacity →
    (c.applySets now ops).Len ≤ c.capacity := by
  intro ops
  induction ops with
  | nil => intro c now _ _ hle; exact hle
  | cons p rest ih =>
      intro c now h hcap hle
      obtain ⟨k, v⟩ := p
      obtain ⟨h1, _, h3⟩ := LRUCache.set_len_le h now k v hcap hle
      show (((c.set now k v).2.1).applySets now rest).Len ≤ c.capacity
      rw [← h3]
      exact ih _ now (lruInv_set h now k v) (h3 ▸ hcap) (h3 ▸ h1)

theorem LRUCache.applySets_warm :
    ∀ (ops : List (Nat × Nat)) (c : LRUCache) (now : Nat),
    lruInv c → 0 < c.capacity → c.Len = c.capacity →
    (c.applySets now ops).Len = c.capacity := by
  intro ops
  induction ops with
  | nil => intro c now _ _ hw; exact hw
  | cons p rest ih =>
      intro c now h hcap hw
      obtain ⟨k, v⟩ := p
      obtain ⟨h1, h2, h3⟩ :=
        LRUCache.set_len_le h now k v hcap (le_of_eq hw)
      show (((c.set now k v).2.1).applySets now rest).Len = c.capacity
      rw [← h3]
      exact ih _ now (lruInv_set h now k v) (h3 ▸ hcap) (h3 ▸ h2 hw)

/-- C1 counterexample: a Simple cache of capacity 1 holds 2 entries after
two `SetWithExpire` calls whose expirations (instant 100) have not yet
passed at the clock time (0) of the second, overflowing `Set` — the claim
says `Len() ≤ capacity` must hold in this situation too. -/
theorem C1_counterexample :
    ((((simpleNew 1).SetWithExpire 0 1 10 100).2.1.SetWithExpire 0 2 20 100).2.1).Len = 2 ∧
    (simpleNew 1).size = 1 ∧
    (((simpleNew 1).SetWithExpire 0 1 10 100).2.1.SetWithExpire 0 2 20 100).2.1.store
      = [(2, ⟨20, some 100⟩), (1, ⟨10, some 100⟩)] := by
  refine ⟨rfl, rfl, rfl⟩

/-- C1 amended: for every sequence of `Set` calls on an LRU cache with
positive capacity, `Len() ≤ capacity` after every call, and once
`Len() = capacity` it stays exactly `capacity`; for the Simple variant the
bound `Len() ≤ size` holds for `Set` sequences as long as no stored entry
carries an expiration (then eviction always finds a candidate), but it can
fail when every stored entry carries a not-yet-passed expiration (see the
counterexample). -/
theorem C1_capacity_amended :
    (∀ (ops : List (Nat × Nat)) (now : Nat) (c : LRUCache),
      lruInv c → 0 < c.capacity → c.Len ≤ c.capacity →
      (c.applySets now ops).Len ≤ c.capacity) ∧
    (∀ (ops : List (Nat × Nat)) (now : Nat) (c : LRUCache),
      lruInv c → 0 < c.capacity → c.Len = c.capacity →
      (c.applySets now ops).Len = c.capacity) ∧
    (∀ (ops : List (Nat × Nat)) (now : Nat) (c : SimpleCache),
      0 < c.size → c.expiration = none → (∀ p ∈ c.store, p.2.expiration = none) →
      c.Len ≤ c.size → (c.applySets now ops).Len ≤ c.size) :=
  ⟨fun ops now c h hcap hle => LRUCache.applySets_len ops c now h hcap hle,
   fun ops now c h hcap hw => LRUCache.applySets_warm ops c now h hcap hw,
   fun ops now c hsz hexp hitems hle =>
     SimpleCache.applySets_len_simple ops c now hsz hexp hitems hle⟩

def wLruItem1 : LruItem := ⟨1, 10, none⟩

def wLruItem2 : LruItem := ⟨2, 20, none⟩

def wLruFull : LRUCache :=
  { lruNew 2 with
    store := [(1, wLruItem1), (2, wLruItem2)]
    evictList := [wLruItem2, wLruItem1] }

/-- Witness for C1's amended theorem on concrete caches and op sequences. -/
theorem C1_witness :
    ((lruNew 2).applySets 0 [(1, 5), (2, 6), (3, 7)]).Len ≤ 2 ∧
    (wLruFull.applySets 0 [(3, 7), (4, 8)]).Len = 2 ∧
    ((simpleNew 2).applySets 0 [(1, 5), (2, 6), (3, 7)]).Len ≤ 2 :=
  ⟨C1_capacity_amended.1 [(1, 5), (2, 6), (3, 7)] 0 (lruNew 2)
      (by decide) (by decide) (by decide),
   C1_capacity_amended.2.1 [(3, 7), (4, 8)] 0 wLruFull
      (by decide) (by decide) (by decide),
   C1_capacity_amended.2.2 [(1, 5), (2, 6), (3, 7)] 0 (simpleNew 2)
      (by decide) rfl (by simp [simpleNew]) (by decide)⟩

/-! ## Claim C8 -/

/-- The complete public operations of the Ordered/LRU variant. -/
inductive LruOp where
  | opSet (k v : Nat)
  | opSetWithExpire (k v d : Nat)
  | opGet (k : Nat)
  | opRemove (k : Nat)
  | opEvict (n : Nat)
  | opPurge

/-- Run one complete operation against the LRU cache. -/
def LRUCache.runOp (c : LRUCache) (now : Nat) : LruOp → LRUCache
  | LruOp.opSet k v => (c.Set now k v).2.1
  | LruOp.opSetWithExpire k v d => (c.SetWithExpire now k v d).2.1
  | LruOp.opGet k => (c.Get now k).2.1
  | LruOp.opRemove k => (c.Remove k).2.1
  | LruOp.opEvict n => (c.evict n).1
  | LruOp.opPurge => c.Purge.1

/-- C8: hash/list bijection invariant of the LRU variant.  After every
complete operation (`Set`, `SetWithExpire`, `Get`, `Remove`, `Evict`,
`Purge`) run on a coherent state, the hash mapping and the recency list are
still in bijection: the invariant (distinct list keys, mapping = the
`(key, element)` pairs of the list up to permutation) is preserved, every
mapped key is a list key and vice versa, and `Len()` of the mapping equals
the length of the list. -/
theorem C8_hash_list_bijection (c : LRUCache) (now : Nat) (op : LruOp)
    (h : lruInv c) :
    lruInv (c.runOp now op) ∧
    (∀ k, (lookupKV k (c.runOp now op).store).isSome ↔ k ∈ keysL (c.runOp now op)) ∧
    (c.runOp now op).Len = (c.runOp now op).evictList.length := by
  have hinv : lruInv (c.runOp now op) := by
    cases op with
    | opSet k v => exact lruInv_set h now k v
    | opSetWithExpire k v d => exact lruInv_setWithExpire h now k v d
    | opGet k => exact lruInv_Get h now k
    | opRemove k => exact lruInv_removeKey h k
    | opEvict n => exact lruInv_evict h n
    | opPurge => exact lruInv_Purge c
  exact ⟨hinv, fun k => hinv.lookup_isSome k, hinv.length_eq⟩

/-- Witness for C8 on a concrete cache and operation. -/
theorem C8_witness :
    lruInv ((lruNew 2).runOp 0 (LruOp.opSet 1 5)) ∧
    (∀ k, (lookupKV k ((lruNew 2).runOp 0 (LruOp.opSet 1 5)).store).isSome ↔
      k ∈ keysL ((lruNew 2).runOp 0 (LruOp.opSet 1 5))) ∧
    ((lruNew 2).runOp 0 (LruOp.opSet 1 5)).Len
      = ((lruNew 2).runOp 0 (LruOp.opSet 1 5)).evictList.length :=
  C8_hash_list_bijection (lruNew 2) 0 (LruOp.opSet 1 5) (by decide)

/-! ## Claim C5 -/

/-- Public operations appearing in a recency trace. -/
inductive LOp where
  | set (k v : Nat)
  | get (k : Nat)

/-- The key an operation touches. -/
def LOp.key : LOp → Nat
  | LOp.set k _ => k
  | LOp.get k => k

/-- Apply one public operation. -/
def LRUCache.applyOp (c : LRUCache) (now : Nat) : LOp → LRUCache
  | LOp.set k v => (c.Set now k v).2.1
  | LOp.get k => (c.Get now k).2.1

/-- Apply a trace of public operations. -/
def LRUCache.applyTrace (c : LRUCache) (now : Nat) : List LOp → LRUCache
  | [] => c
  | op :: ops => (c.applyOp now op).applyTrace now ops

/-- Follows the spec's words: touching a key moves it to the front of the
most-recently-used-first order. -/
def specTouch (l : List Nat) (k : Nat) : List Nat := k :: l.erase k

/-- Follows the spec's words: the recency order after a trace — a `Set`
touches its key, a `Get` touches its key when it hits (the key is present),
and the back of the order is the least-recently touched key. -/
def specRecency : List Nat → List LOp → List Nat
  | l, [] => l
  | l, LOp.set k _ :: ops => specRecency (specTouch l k) ops
  | l, LOp.get k :: ops => specRecency (if k ∈ l then specTouch l k else l) ops

/-- The configuration under which the recency trace runs: no hooks that
rewrite values, no expirations anywhere, no loader, and a coherent state. -/
def plainLru (c : LRUCache) : Prop :=
  c.serializeFunc = none ∧ c.deserializeFunc = none ∧ c.expiration = none ∧
  c.hasLoader = false ∧ (∀ it ∈ c.evictList, it.expiration = none) ∧ lruInv c

theorem updItem_forall {P : LruItem → Prop} {l : List LruItem} (k : Nat)
    {f : LruItem → LruItem} (hP : ∀ it ∈ l, P it) (hf : ∀ a, P a → P (f a)) :
    ∀ it ∈ updItem k f l, P it := by
  induction l with
  | nil => intro it hit; simp [updItem] at hit
  | cons x rest ih =>
      intro it hit
      have hPrest : ∀ it ∈ rest, P it := fun it h => hP it (List.mem_cons_of_mem _ h)
      by_cases h : x.key = k
      · simp only [updItem, h, if_pos, List.mem_cons] at hit
        rcases hit with hit | hit
        · rw [hit]
          exact hf _ (hP x (List.mem_cons_self _ _))
        · exact ih hPrest it hit
      · simp only [updItem, h, if_neg, if_false, List.mem_cons] at hit
        rcases hit with hit | hit
        · rw [hit]
          exact hP x (List.mem_cons_self _ _)
        · exact ih hPrest it hit

theorem moveToFront_mem {l : List LruItem} {k : Nat} :
    ∀ it ∈ moveToFront k l, it ∈ l :=
  fun it hit => (moveToFront_perm k l).mem_iff.1 hit

/-- A `Set` of a key already present: the node moves to the front of the
recency order, and the plain configuration persists. -/
theorem LRUCache.step_set_existing {c : LRUCache} (hp : plainLru c) {k : Nat}
    (hk : k ∈ keysL c) (now v : Nat) :
    keysL (c.Set now k v).2.1 = specTouch (keysL c) k ∧
    plainLru (c.Set now k v).2.1 ∧
    (c.Set now k v).2.1.capacity = c.capacity ∧
    (c.Set now k v).2.1.Len = c.Len := by
  obtain ⟨hser, hdes, hexp, hld, hitems, hinv⟩ := hp
  obtain ⟨it0, hfind⟩ :=
    Option.isSome_iff_exists.1 (findItem_isSome.2 hk)
  have hl : lookupKV k c.store = some it0 := by rw [hinv.lookup_eq]; exact hfind
  have heq := LRUCache.set_existing hser hexp hl now v
  have hst : (c.set now k v).2.1 =
      { c with
          evictList := updItem k (fun it => { it with value := v }) (moveToFront k c.evictList),
          store := updKV k (fun it => { it with value := v }) c.store } := by
    rw [heq]
  have hinv' := lruInv_set hinv now k v
  rw [hst] at hinv'
  have hkeys : keysL ({ c with
      evictList := updItem k (fun it => { it with value := v }) (moveToFront k c.evictList),
      store := updKV k (fun it => { it with value := v }) c.store } : LRUCache)
      = specTouch (keysL c) k := by
    show (updItem k _ (moveToFront k c.evictList)).map LruItem.key = specTouch (keysL c) k
    rw [map_key_updItem (f := fun it => ({ it with value := v } : LruItem)) (fun it => rfl),
      map_key_moveToFront hk]
    rfl
  refine ⟨by rw [show (c.Set now k v).2.1 = (c.set now k v).2.1 from rfl, hst]; exact hkeys,
    ?_, ?_, ?_⟩
  · rw [show (c.Set now k v).2.1 = (c.set now k v).2.1 from rfl, hst]
    refine ⟨hser, hdes, hexp, hld, ?_, hst ▸ lruInv_set hinv now k v⟩
    exact updItem_forall k
      (fun it hit => hitems it (moveToFront_mem it hit))
      (fun a ha => ha)
  · rw [show (c.Set now k v).2.1 = (c.set now k v).2.1 from rfl, hst]
  · rw [show (c.Set now k v).2.1 = (c.set now k v).2.1 from rfl, hst]
    show (updKV k _ c.store).length = c.store.length
    exact length_updKV _ _ _

/-- A `Set` of a new key with room left: the node is pushed to the front,
nothing is evicted. -/
theorem LRUCache.step_set_new {c : LRUCache} (hp : plainLru c) {k : Nat}
    (hk : k ∉ keysL c) (hroom : c.evictList.length < c.capacity) (now v : Nat) :
    keysL (c.Set now k v).2.1 = k :: keysL c ∧
    plainLru (c.Set now k v).2.1 ∧
    (c.Set now k v).2.1.capacity = c.capacity ∧
    (c.Set now k v).2.1.Len = c.Len + 1 := by
  obtain ⟨hser, hdes, hexp, hld, hitems, hinv⟩ := hp
  have hl : lookupKV k c.store = none := by
    rw [hinv.lookup_eq]
    exact findItem_eq_none.2 hk
  have hcap : ¬ c.capacity ≤ c.evictList.length := by omega
  have heq := LRUCache.set_new_noevict hser hexp hl hcap now v
  have hst : (c.set now k v).2.1 =
      { c with evictList := (⟨k, v, none⟩ : LruItem) :: c.evictList,
               store := (k, (⟨k, v, none⟩ : LruItem)) :: c.store } := by
    rw [heq]
  refine ⟨?_, ?_, ?_, ?_⟩
  · rw [show (c.Set now k v).2.1 = (c.set now k v).2.1 from rfl, hst]
    rfl
  · rw [show (c.Set now k v).2.1 = (c.set now k v).2.1 from rfl, hst]
    refine ⟨hser, hdes, hexp, hld, ?_, hst ▸ lruInv_set hinv now k v⟩
    intro it hit
    rcases List.mem_cons.1 hit with hit | hit
    · rw [hit]
    · exact hitems it hit
  · rw [show (c.Set now k v).2.1 = (c.set now k v).2.1 from rfl, hst]
  · rw [show (c.Set now k v).2.1 = (c.set now k v).2.1 from rfl, hst]
    rfl

/-- A `Get`: on a hit the node moves to the front, on a miss nothing
changes in the order. -/
theorem LRUCache.step_get {c : LRUCache} (hp : plainLru c) (now k : Nat) :
    keysL (c.Get now k).2.1 = (if k ∈ keysL c then specTouch (keysL c) k else keysL c) ∧
    plainLru (c.Get now k).2.1 ∧
    (c.Get now k).2.1.capacity = c.capacity ∧
    (c.Get now k).2.1.Len = c.Len := by
  obtain ⟨hser, hdes, hexp, hld, hitems, hinv⟩ := hp
  by_cases hk : k ∈ keysL c
  · obtain ⟨it0, hfind⟩ := Option.isSome_iff_exists.1 (findItem_isSome.2 hk)
    have hl : lookupKV k c.store = some it0 := by rw [hinv.lookup_eq]; exact hfind
    have hexp0 : it0.expiration = none := hitems it0 (findItem_some hfind).2
    have hne : it0.isExpired now = false := by
      unfold LruItem.isExpired
      rw [hexp0]
    have heq := LRUCache.Get_hit hl hne hdes
    have hst : (c.Get now k).2.1 =
        { c with evictList := moveToFront k c.evictList,
                 hitCount := c.hitCount + 1 } := by
      rw [heq]
    have hinv' := lruInv_Get hinv now k
    rw [hst] at hinv'
    refine ⟨?_, ?_, ?_, ?_⟩
    · rw [hst, if_pos hk]
      show (moveToFront k c.evictList).map LruItem.key = specTouch (keysL c) k
      rw [map_key_moveToFront hk]
      rfl
    · rw [hst]
      exact ⟨hser, hdes, hexp, hld,
        fun it hit => hitems it (moveToFront_mem it hit), hinv'⟩
    · rw [hst]
    · rw [hst]
      rfl
  · have hl : lookupKV k c.store = none := by
      rw [hinv.lookup_eq]
      exact findItem_eq_none.2 hk
    have heq := LRUCache.Get_miss hld hl now
    have hst : (c.Get now k).2.1 = { c with missCount := c.missCount + 1 } := by
      rw [heq]
    have hinv' := lruInv_Get hinv now k
    rw [hst] at hinv'
    refine ⟨?_, ?_, ?_, ?_⟩
    · rw [hst, if_neg hk]
      rfl
    · rw [hst]
      exact ⟨hser, hdes, hexp, hld, hitems, hinv'⟩
    · rw [hst]
    · rw [hst]
      rfl

theorem plainLru_lruNew (cap : Nat) : plainLru (lruNew cap) :=
  ⟨rfl, rfl, rfl, rfl, fun it hit => absurd hit (by simp [lruNew]),
    ⟨by simp [lruNew], by simp [lruNew, itemPair]⟩⟩

/-- The recency list tracks the spec's most-recently-touched-first order
along any trace whose keys come from a set `K` of at most `capacity` many
keys. -/
theorem LRUCache.trace_keys (K : List Nat) (now : Nat) :
    ∀ (ops : List LOp) (c : LRUCache), plainLru c → K.Nodup →
    K.length ≤ c.capacity →
    (∀ op ∈ ops, op.key ∈ K) → (∀ x ∈ keysL c, x ∈ K) →
    keysL (c.applyTrace now ops) = specRecency (keysL c) ops ∧
    plainLru (c.applyTrace now ops) ∧
    (c.applyTrace now ops).capacity = c.capacity ∧
    (∀ x ∈ keysL (c.applyTrace now ops), x ∈ K) := by
  intro ops
  induction ops with
  | nil => intro c hp _ _ _ hsub; exact ⟨rfl, hp, rfl, hsub⟩
  | cons op rest ih =>
      intro c hp hK hcap hops hsub
      have hopK : op.key ∈ K := hops op (List.mem_cons_self _ _)
      have hrest : ∀ o ∈ rest, LOp.key o ∈ K :=
        fun o ho => hops o (List.mem_cons_of_mem _ ho)
      cases op with
      | set k v =>
          by_cases hk : k ∈ keysL c
          · obtain ⟨h1, h2, h3, h4⟩ := LRUCache.step_set_existing hp hk now v
            have hsub' : ∀ x ∈ keysL (c.Set now k v).2.1, x ∈ K := by
              rw [h1]
              intro x hx
              rcases List.mem_cons.1 hx with hx | hx
              · rw [hx]; exact hopK
              · exact hsub x (List.erase_subset _ _ hx)
            have hmain := ih (c.Set now k v).2.1 h2 hK (h3 ▸ hcap) hrest hsub'
            refine ⟨?_, hmain.2.1, ?_, hmain.2.2.2⟩
            · show keysL (((c.Set now k v).2.1).applyTrace now rest) = _
              rw [hmain.1, h1]
              rfl
            · rw [show (c.applyTrace now (LOp.set k v :: rest)).capacity
                = (((c.Set now k v).2.1).applyTrace now rest).capacity from rfl,
                hmain.2.2.1, h3]
          · have hnodup : (k :: keysL c).Nodup :=
              List.nodup_cons.2 ⟨hk, hp.2.2.2.2.2.1⟩
            have hsubK : ∀ x ∈ (k :: keysL c), x ∈ K := by
              intro x hx
              rcases List.mem_cons.1 hx with hx | hx
              · rw [hx]; exact hopK
              · exact hsub x hx
            have hlenle := (hnodup.subperm hsubK).length_le
            have hroom : c.evictList.length < c.capacity := by
              have hkeyslen : (keysL c).length = c.evictList.length :=
                List.length_map _ _
              simp only [List.length_cons, hkeyslen] at hlenle
              omega
            obtain ⟨h1, h2, h3, h4⟩ := LRUCache.step_set_new hp hk hroom now v
            have hsub' : ∀ x ∈ keysL (c.Set now k v).2.1, x ∈ K := by
              rw [h1]
              intro x hx
              rcases List.mem_cons.1 hx with hx | hx
              · rw [hx]; exact hopK
              · exact hsub x hx
            have hmain := ih (c.Set now k v).2.1 h2 hK (h3 ▸ hcap) hrest hsub'
            refine ⟨?_, hmain.2.1, ?_, hmain.2.2.2⟩
            · show keysL (((c.Set now k v).2.1).applyTrace now rest) = _
              rw [hmain.1, h1]
              show specRecency (k :: keysL c) rest
                  = specRecency (specTouch (keysL c) k) rest
              rw [specTouch, List.erase_of_not_mem hk]
            · rw [show (c.applyTrace now (LOp.set k v :: rest)).capacity
                = (((c.Set now k v).2.1).applyTrace now rest).capacity from rfl,
                hmain.2.2.1, h3]
      | get k =>
          obtain ⟨h1, h2, h3, h4⟩ := LRUCache.step_get hp now k
          have hsub' : ∀ x ∈ keysL (c.Get now k).2.1, x ∈ K := by
            rw [h1]
            by_cases hk : k ∈ keysL c
            · rw [if_pos hk]
              intro x hx
              rcases List.mem_cons.1 hx with hx | hx
              · rw [hx]; exact hopK
              · exact hsub x (List.erase_subset _ _ hx)
            · rw [if_neg hk]
              exact hsub
          have hmain := ih (c.Get now k).2.1 h2 hK (h3 ▸ hcap) hrest hsub'
          refine ⟨?_, hmain.2.1, ?_, hmain.2.2.2⟩
          · show keysL (((c.Get now k).2.1).applyTrace now rest) = _
            rw [hmain.1, h1]
            rfl
          · rw [show (c.applyTrace now (LOp.get k :: rest)).capacity
              = (((c.Get now k).2.1).applyTrace now rest).capacity from rfl,
              hmain.2.2.1, h3]

/-- `Evict(n)` removes exactly the last `min(n, length)` elements of the
recency list. -/
theorem LRUCache.evict_take :
    ∀ (n : Nat) (c : LRUCache), (keysL c).Nodup →
    (c.evict n).1.evictList = c.evictList.take (c.evictList.length - n) := by
  intro n
  induction n with
  | zero =>
      intro c _
      show c.evictList = c.evictList.take (c.evictList.length - 0)
      rw [Nat.sub_zero, List.take_length]
  | succ m ih =>
      intro c hnd
      unfold LRUCache.evict
      cases hlast : c.evictList.getLast? with
      | none =>
          have hnil : c.evictList = [] := by
            cases hev : c.evictList with
            | nil => rfl
            | cons x rest =>
                exfalso
                have := List.getLast?_isSome.2 (by simp : x :: rest ≠ [])
                rw [← hev, hlast] at this
                simp at this
          rw [hnil]
          simp
      | some itl =>
          have hdrop : eraseItem itl.key c.evictList = c.evictList.dropLast :=
            eraseItem_getLast hnd hlast
          have hnd' : (keysL (c.removeElement itl).1).Nodup := by
            show ((eraseItem itl.key c.evictList).map LruItem.key).Nodup
            exact hnd.sublist ((eraseItem_sublist _ _).map _)
          have hrec := ih (c.removeElement itl).1 hnd'
          rw [show ((let r := c.removeElement itl
              let r2 := r.1.evict m
              (r2.1, r.2 ++ r2.2)).1.evictList) = ((c.removeElement itl).1.evict m).1.evictList
            from rfl]
          rw [hrec]
          show (eraseItem itl.key c.evictList).take
              ((eraseItem itl.key c.evictList).length - m)
            = c.evictList.take (c.evictList.length - (m + 1))
          rw [hdrop, List.length_dropLast, List.dropLast_eq_take, List.take_take]
          congr 1
          omega

/-- C5: Recency order of the LRU variant.  (a) `Set` on an existing key and
(b) `Get` on a hit move the key to the front of the recency order;
(c) `Evict(n)` removes the last `min(n, length)` nodes from the back; and
(d) after any trace of `Set`/`Get` over at most `capacity` distinct keys on
a fresh warm cache, the key removed by the next overflowing `Set` is
exactly the least-recently touched one (the back of the spec's recency
order): it disappears from the mapping while every other key, and the new
key, remain. -/
theorem C5_recency_order :
    (∀ (c : LRUCache) (now k v : Nat), plainLru c → k ∈ keysL c →
      keysL (c.Set now k v).2.1 = k :: (keysL c).erase k) ∧
    (∀ (c : LRUCache) (now k : Nat), plainLru c → k ∈ keysL c →
      keysL (c.Get now k).2.1 = k :: (keysL c).erase k) ∧
    (∀ (c : LRUCache) (n : Nat), (keysL c).Nodup →
      (c.evict n).1.evictList = c.evictList.take (c.evictList.length - n)) ∧
    (∀ (trace : List LOp) (K : List Nat) (now knew v cap kl : Nat),
      K.Nodup → K.length ≤ cap → (∀ op ∈ trace, op.key ∈ K) → knew ∉ K →
      0 < cap →
      ((lruNew cap).applyTrace now trace).Len = cap →
      (specRecency [] trace).getLast? = some kl →
      (lookupKV kl ((lruNew cap).applyTrace now trace).store).isSome ∧
      lookupKV kl ((((lruNew cap).applyTrace now trace).set now knew v).2.1).store = none ∧
      lookupKV knew ((((lruNew cap).applyTrace now trace).set now knew v).2.1).store
        = some (⟨knew, v, none⟩ : LruItem) ∧
      (∀ x, x ≠ kl → x ≠ knew →
        lookupKV x ((((lruNew cap).applyTrace now trace).set now knew v).2.1).store
          = lookupKV x ((lruNew cap).applyTrace now trace).store)) := by
  refine ⟨?_, ?_, ?_, ?_⟩
  · intro c now k v hp hk
    exact (LRUCache.step_set_existing hp hk now v).1
  · intro c now k hp hk
    have := (LRUCache.step_get hp now k).1
    rwa [if_pos hk] at this
  · intro c n hnd
    exact LRUCache.evict_take n c hnd
  · intro trace K now knew v cap kl hK hKlen hops hknew hcap hwarm hlast
    obtain ⟨htrace, hplain, hcapeq, hsubK⟩ :=
      LRUCache.trace_keys K now trace (lruNew cap) (plainLru_lruNew cap) hK hKlen hops
        (by intro x hx; simp [keysL, lruNew] at hx)
    obtain ⟨hser, hdes, hexp, hld, hitems, hinv⟩ := hplain
    have htrace' : keysL ((lruNew cap).applyTrace now trace) = specRecency [] trace := htrace
    have hkl_mem : kl ∈ keysL ((lruNew cap).applyTrace now trace) := by
      rw [htrace']
      exact getLast?_mem hlast
    have hkeyslast : (keysL ((lruNew cap).applyTrace now trace)).getLast? = some kl := by
      rw [htrace']
      exact hlast
    obtain ⟨itl, hlast2, hklkey⟩ :
        ∃ itl, ((lruNew cap).applyTrace now trace).evictList.getLast? = some itl ∧
          itl.key = kl := by
      have hmk2 : (((lruNew cap).applyTrace now trace).evictList.getLast?).map LruItem.key
          = some kl := by
        rw [← hkeyslast]
        exact (getLast?_map_key _).symm
      cases hg : ((lruNew cap).applyTrace now trace).evictList.getLast? with
      | none => rw [hg] at hmk2; simp at hmk2
      | some itl =>
          rw [hg] at hmk2
          simp only [Option.map_some'] at hmk2
          refine ⟨itl, rfl, ?_⟩
          injection hmk2
    have hlsome : (lookupKV kl ((lruNew cap).applyTrace now trace).store).isSome :=
      (hinv.lookup_isSome kl).2 hkl_mem
    have hklK : kl ∈ K := hsubK kl hkl_mem
    have hklnew : kl ≠ knew := fun hh => hknew (hh ▸ hklK)
    have hl : lookupKV knew ((lruNew cap).applyTrace now trace).store = none := by
      rw [hinv.lookup_eq]
      exact findItem_eq_none.2 (fun hmem => hknew (hsubK knew hmem))
    have hlistlen : ((lruNew cap).applyTrace now trace).store.length
        = ((lruNew cap).applyTrace now trace).evictList.length := hinv.length_eq
    have hstorelen : ((lruNew cap).applyTrace now trace).store.length = cap := hwarm
    have hcapc : ((lruNew cap).applyTrace now trace).capacity = cap := hcapeq
    have hcapbranch : ((lruNew cap).applyTrace now trace).capacity
        ≤ ((lruNew cap).applyTrace now trace).evictList.length := by omega
    have heq := LRUCache.set_new_evict hser hexp hl hcapbranch hlast2 now v
    have hst : (((lruNew cap).applyTrace now trace).set now knew v).2.1 =
        { (lruNew cap).applyTrace now trace with
            evictList := (⟨knew, v, none⟩ : LruItem) ::
              eraseItem itl.key ((lruNew cap).applyTrace now trace).evictList,
            store := (knew, (⟨knew, v, none⟩ : LruItem)) ::
              eraseKV itl.key ((lruNew cap).applyTrace now trace).store } := by
      rw [heq]
    refine ⟨hlsome, ?_, ?_, ?_⟩
    · rw [hst]
      show lookupKV kl ((knew, (⟨knew, v, none⟩ : LruItem)) ::
          eraseKV itl.key ((lruNew cap).applyTrace now trace).store) = none
      rw [show lookupKV kl ((knew, (⟨knew, v, none⟩ : LruItem)) ::
          eraseKV itl.key ((lruNew cap).applyTrace now trace).store)
        = if knew = kl then some (⟨knew, v, none⟩ : LruItem)
          else lookupKV kl (eraseKV itl.key ((lruNew cap).applyTrace now trace).store)
        from rfl]
      rw [if_neg (Ne.symm hklnew), hklkey]
      exact lookupKV_eraseKV_self hinv.store_nodup
    · rw [hst]
      show (if knew = knew then some (⟨knew, v, none⟩ : LruItem)
        else lookupKV knew (eraseKV itl.key ((lruNew cap).applyTrace now trace).store))
        = some (⟨knew, v, none⟩ : LruItem)
      rw [if_pos rfl]
    · intro x hxkl hxnew
      rw [hst]
      show (if knew = x then some (⟨knew, v, none⟩ : LruItem)
        else lookupKV x (eraseKV itl.key ((lruNew cap).applyTrace now trace).store))
        = lookupKV x ((lruNew cap).applyTrace now trace).store
      rw [if_neg (Ne.symm hxnew), hklkey]
      exact lookupKV_eraseKV_ne hxkl

/-- Witness for C5 on a concrete warm cache and trace. -/
theorem C5_witness :
    keysL (wLruFull.Set 0 1 99).2.1 = 1 :: (keysL wLruFull).erase 1 ∧
    keysL (wLruFull.Get 0 1).2.1 = 1 :: (keysL wLruFull).erase 1 ∧
    (wLruFull.evict 1).1.evictList
      = wLruFull.evictList.take (wLruFull.evictList.length - 1) ∧
    ((lookupKV 2 ((lruNew 2).applyTrace 0
        [LOp.set 1 10, LOp.set 2 20, LOp.get 1]).store).isSome ∧
      lookupKV 2 ((((lruNew 2).applyTrace 0
        [LOp.set 1 10, LOp.set 2 20, LOp.get 1]).set 0 3 7).2.1).store = none ∧
      lookupKV 3 ((((lruNew 2).applyTrace 0
        [LOp.set 1 10, LOp.set 2 20, LOp.get 1]).set 0 3 7).2.1).store
        = some (⟨3, 7, none⟩ : LruItem) ∧
      (∀ x, x ≠ 2 → x ≠ 3 →
        lookupKV x ((((lruNew 2).applyTrace 0
          [LOp.set 1 10, LOp.set 2 20, LOp.get 1]).set 0 3 7).2.1).store
          = lookupKV x ((lruNew 2).applyTrace 0
            [LOp.set 1 10, LOp.set 2 20, LOp.get 1]).store)) :=
  have hplain : plainLru wLruFull :=
    ⟨rfl, rfl, rfl, rfl, by decide, by decide⟩
  ⟨C5_recency_order.1 wLruFull 0 1 99 hplain (by decide),
   C5_recency_order.2.1 wLruFull 0 1 hplain (by decide),
   C5_recency_order.2.2.1 wLruFull 1 (by decide),
   C5_recency_order.2.2.2 [LOp.set 1 10, LOp.set 2 20, LOp.get 1] [1, 2] 0 3 7 2 2
     (by decide) (by decide) (by decide) (by decide) (by decide) (by decide) (by decide)⟩

end Gcache
